import Mathlib

/-!
Verification of the multi-source EPG reconciliation engine
(`epg_generator.py`): channel-name normalization, the fuzzy-matching
cascade, the interval-based program deduplication engine, the external
channel-identity allocator, and the priority-ordered multi-source merge
loop of `epg_main`.

Python strings are modelled as Lean `String` (a wrapper around
`List Char`); `None`-able parameters as `Option`; Python dicts as
insertion-ordered association lists (first-match lookup, in-place value
replacement); Python object aliasing between `unmatched_bjcul_channels`
and `pending_channels` is modelled by a channel store plus index lists.
-/

/-! ## Configuration constants (from `EPG_CONFIG`) -/

def KEEP_4K_NAMES : List String := ["CCTV4K", "爱上4K", "4K超清"]

def EXCLUDE_MULTI_SOURCE_CHANNELS : List String := [""]

def EXCLUDE_MULTI_SOURCE_CATEGORIES : List String := ["TS频道", "体验频道"]

/-! ## String helpers

Python string primitives (`in`, `strip`, `replace`, `startswith`) are
modelled on the underlying character lists. -/

/-- The set of characters Python treats as whitespace (`str.isspace`,
`\s` in `re` with str patterns): ASCII whitespace, the C1 separators,
NEL, NBSP and the Unicode space characters. -/
def isPySpace (c : Char) : Bool :=
  c ∈ [' ', '\t', '\n', '\x0b', '\x0c', '\r',
       '\x1c', '\x1d', '\x1e', '\x1f', '\u0085', '\u00a0',
       '\u1680', '\u2000', '\u2001', '\u2002', '\u2003', '\u2004',
       '\u2005', '\u2006', '\u2007', '\u2008', '\u2009', '\u200a',
       '\u2028', '\u2029', '\u202f', '\u205f', '\u3000']

/-- `needle` occurs at the head of `hay`. -/
def listIsPref : List Char → List Char → Bool
  | [], _ => true
  | _ :: _, [] => false
  | n :: ns, h :: hs => n == h && listIsPref ns hs

/-- Python's substring test `needle in hay`. -/
def listContainsSub (hay needle : List Char) : Bool :=
  match hay with
  | [] => listIsPref needle []
  | _ :: rest => listIsPref needle hay || listContainsSub rest needle

/-- Python `needle in hay` on strings. -/
def strContains (hay needle : String) : Bool :=
  listContainsSub hay.data needle.data

/-- Python `s.startswith(p)`. -/
def strStartsWith (s p : String) : Bool :=
  listIsPref p.data s.data

/-- Python `s.replace(c, "")` for a single-character pattern. -/
def removeChar (c : Char) (s : String) : String :=
  ⟨s.data.filter (fun d => !(d == c))⟩

/-- Python `s.strip()`: drop leading and trailing whitespace. -/
def pyStrip (s : String) : String :=
  ⟨((s.data.dropWhile isPySpace).reverse.dropWhile isPySpace).reverse⟩

/-- Python `re.sub(r"\s+", "", s)`: drop every whitespace character. -/
def removeAllWs (s : String) : String :=
  ⟨s.data.filter (fun c => !isPySpace c)⟩

/-! ## The trailing quality-token pattern

`clean_channel_name` ends with
`re.sub(r"(\s*[-_()]?\s*(4K|SDR|HDR|超清))+$", "", raw_name, flags=re.IGNORECASE)`.
The regular language `X+` with `X = \s*[-_()]?\s*(4K|SDR|HDR|超清)`
(case-insensitive) is recognised by the DFA below; `re.sub` with the `$`
anchor removes the longest such suffix starting at the leftmost possible
position. -/

/-- DFA states for `X+` where `X = \s*[-_()]?\s*(4K|SDR|HDR|超清)`:
`expectA` awaits a block (separator still allowed), `expectB` has
consumed the optional separator, the `mid*` states are inside one of the
alternates `4K`/`SDR`/`HDR`/`超清`, `acc` has just finished an
alternate (the only accepting state), `dead` is failure. -/
inductive SufState where
  | expectA | expectB
  | mid4 | midS1 | midS2 | midH1 | midH2 | midC1
  | acc | dead
deriving DecidableEq

/-- Start of one of the case-insensitive alternates
`4K`, `SDR`, `HDR`, `超清`; shared by `expectA`, `expectB` and `acc`. -/
def sufAltStart (c : Char) : SufState :=
  if c == '4' then SufState.mid4
  else if c == 'S' || c == 's' then SufState.midS1
  else if c == 'H' || c == 'h' then SufState.midH1
  else if c == '超' then SufState.midC1
  else SufState.dead

/-- One DFA transition. -/
def sufStep (st : SufState) (c : Char) : SufState :=
  match st with
  | SufState.expectA =>
      if isPySpace c then SufState.expectA
      else if c ∈ ['-', '_', '(', ')'] then SufState.expectB
      else sufAltStart c
  | SufState.expectB =>
      if isPySpace c then SufState.expectB
      else sufAltStart c
  | SufState.mid4 => if c == 'K' || c == 'k' then SufState.acc else SufState.dead
  | SufState.midS1 => if c == 'D' || c == 'd' then SufState.midS2 else SufState.dead
  | SufState.midS2 => if c == 'R' || c == 'r' then SufState.acc else SufState.dead
  | SufState.midH1 => if c == 'D' || c == 'd' then SufState.midH2 else SufState.dead
  | SufState.midH2 => if c == 'R' || c == 'r' then SufState.acc else SufState.dead
  | SufState.midC1 => if c == '清' then SufState.acc else SufState.dead
  | SufState.acc =>
      if isPySpace c then SufState.expectA
      else if c ∈ ['-', '_', '(', ')'] then SufState.expectB
      else sufAltStart c
  | SufState.dead => SufState.dead

/-- Membership of a character list in the language `X+`. -/
def xplus (l : List Char) : Bool :=
  l.foldl sufStep SufState.expectA == SufState.acc

/-- In Python `re`, `$` matches at the end of the string and also just
before a single trailing newline; so `(X)+$` can also match a suffix
that is followed by one final `'\n'`. -/
def xplusDollar (l : List Char) : Bool :=
  xplus l || (l.getLast? == some '\n' && xplus l.dropLast)

/-- Remove the suffix matched by `(X)+$`: keep characters until the
first (leftmost) position whose remaining suffix matches `(X)+` up to
`$`; from there on the matched region is removed (a trailing newline
used by `$` stays).  This is what `re.sub(..., "")` does with this
anchored pattern: the leftmost match wins and runs to the anchor. -/
def stripXPlusSuffix : List Char → List Char
  | [] => []
  | c :: rest =>
      if xplus (c :: rest) then []
      else if xplusDollar (c :: rest) then ['\n']
      else c :: stripXPlusSuffix rest

/-! ## `clean_channel_name` (the Name Normalizer) -/

/-- Body of `clean_channel_name` for a non-empty string input, after the
`if not raw_name` guard. -/
def cleanCore (s : String) : String :=
  if strContains s "4K"
      && (strContains s "CCTV4K" || strContains s "4K超高清" || strContains s "爱上4K") then
    removeChar ' ' (removeChar '-' s)
  else if s ∈ KEEP_4K_NAMES then
    s
  else
    removeAllWs (pyStrip ⟨stripXPlusSuffix (removeChar ' ' (removeChar '-' s)).data⟩)

/-- `clean_channel_name(raw_name)`.  A `None` or empty argument yields
the empty string (`if not raw_name: return ""`). -/
def clean_channel_name (rawName : Option String) : String :=
  match rawName with
  | none => ""
  | some s => if s == "" then "" else cleanCore s

/-! ## The `CCTV(4K|\d+\+?)` tag pattern of `fuzzy_match` -/

def isAsciiDigit (c : Char) : Bool := '0' ≤ c && c ≤ '9'

/-- Match the group `(4K|\d+\+?)` at the head of `l`: the alternative
`4K` is preferred; otherwise a maximal run of digits optionally followed
by `+`.  Returns the matched group text. -/
def cctvTagAt (l : List Char) : Option String :=
  if listIsPref ['4', 'K'] l then some "4K"
  else
    let ds := l.takeWhile isAsciiDigit
    if ds.isEmpty then none
    else
      match l.drop ds.length with
      | '+' :: _ => some ⟨ds ++ ['+']⟩
      | _ => some ⟨ds⟩

/-- `re.compile(r'CCTV(4K|\d+\+?)').search(s).group(1)`: scan left to
right for a position where the literal `CCTV` followed by the group
matches; return the group text of the first such match. -/
def cctvTagSearch : List Char → Option String
  | [] => none
  | c :: rest =>
      match (if listIsPref ['C', 'C', 'T', 'V'] (c :: rest)
             then cctvTagAt ((c :: rest).drop 4) else none) with
      | some t => some t
      | none => cctvTagSearch rest

/-! ## `fuzzy_match` (the Fuzzy Channel Matcher) -/

/-- One entry of the `ext_candidate` list built by `fuzzy_match`. -/
structure Cand where
  clean : String
  tag : Option String
  original : String
  len : Nat
deriving DecidableEq

instance : Inhabited Cand := ⟨⟨"", none, "", 0⟩⟩

/-- The candidate-name normalisation used throughout `fuzzy_match`:
`clean_channel_name(ext_name)` when `clean_ext_name` is set, else
`ext_name.strip().replace(" ", "")`. -/
def extClean (cleanExtName : Bool) (extName : String) : String :=
  if cleanExtName then clean_channel_name (some extName)
  else removeChar ' ' (pyStrip extName)

/-- Whether the local channel counts as a 4K variant:
`"CCTV4K" in local_clean_name or local_clean_name in KEEP_4K_NAMES`. -/
def localIs4k (localCleanName : String) : Bool :=
  strContains localCleanName "CCTV4K" || localCleanName ∈ KEEP_4K_NAMES

/-- Build `ext_candidate`: normalise every name, drop any candidate
containing `4K` when the local channel is not a 4K variant, and record
the `CCTV` tag and normalised length. -/
def buildCandidates (localCleanName : String) (extNames : List String)
    (cleanExtName : Bool) : List Cand :=
  extNames.filterMap fun extName =>
    let c := extClean cleanExtName extName
    if !localIs4k localCleanName && strContains c "4K" then none
    else some ⟨c, cctvTagSearch c.data, extName, c.length⟩

/-- Stable insertion into a list sorted by ascending `len`. -/
def insertByLen (x : Cand) : List Cand → List Cand
  | [] => [x]
  | y :: ys => if x.len ≤ y.len then x :: y :: ys else y :: insertByLen x ys

/-- Python's stable `list.sort(key=lambda x: x["len"])`. -/
def sortByLen : List Cand → List Cand
  | [] => []
  | x :: xs => insertByLen x (sortByLen xs)

/-- Rule 1, the CGTN-documentary special case: scan the raw candidate
list; the nested `if`/`elif` both return the candidate, so the first
candidate whose normalised form contains `CGTN` and `纪录` wins. -/
def cgtnRule (extNames : List String) (cleanExtName : Bool) : Option String :=
  extNames.findSome? fun extName =>
    let c := extClean cleanExtName extName
    if strContains c "CGTN" && strContains c "纪录" && strContains c "英文" then
      some extName
    else if strContains c "CGTN" && strContains c "纪录" then some extName
    else none

/-- Rule 2: exact normalised equality; first hit in candidate order. -/
def rule2Exact (localCleanName : String) (cands : List Cand) : Option String :=
  cands.findSome? fun e =>
    if localCleanName == e.clean then some e.original else none

/-- Rule 3: CCTV4 regional variant; filter, sort by length, take head. -/
def rule3Region (regionKey : String) (cands : List Cand) : Option String :=
  let m := cands.filter fun e => e.tag == some "4" && strContains e.clean regionKey
  if m.isEmpty then none else some (sortByLen m).headI.original

/-- Rule 4: CCTV4K variant; filter, sort by length, take head. -/
def rule4Cctv4k (cands : List Cand) : Option String :=
  let m := cands.filter fun e => strContains e.clean "CCTV4K"
  if m.isEmpty then none else some (sortByLen m).headI.original

/-- Rule 5: equality of the extracted CCTV tags; filter, sort, head. -/
def rule5Tag (localTag : String) (cands : List Cand) : Option String :=
  let m := cands.filter fun e => e.tag == some localTag
  if m.isEmpty then none else some (sortByLen m).headI.original

/-- Rule 6: containment with bounded slack; filter, sort, head. -/
def rule6Contain (localCleanName : String) (cands : List Cand) : Option String :=
  let m := cands.filter fun e =>
    strContains e.clean localCleanName && e.len ≤ localCleanName.length + 10
  if m.isEmpty then none else some (sortByLen m).headI.original

/-- Rule 7: compare with every `+` removed; first hit in order. -/
def rule7NoPlus (localCleanName : String) (cands : List Cand) : Option String :=
  let localNoPlus := removeChar '+' localCleanName
  cands.findSome? fun e =>
    if localNoPlus == removeChar '+' e.clean then some e.original else none

/-- Rules 2-7 of the cascade, operating after the rule-1 special case:
the candidate filter, then exact / regional / 4K / tag / containment /
plus-stripped comparison in order. -/
def fuzzyMatchRest (localCleanName : String) (extNames : List String)
    (cleanExtName : Bool) : Option String :=
  let isCctv4Europe := strContains localCleanName "CCTV4" && strContains localCleanName "欧洲"
  let isCctv4America := strContains localCleanName "CCTV4" && strContains localCleanName "美洲"
  let isCctv4k := strContains localCleanName "CCTV4K"
  let localTag := cctvTagSearch localCleanName.data
  let cands := buildCandidates localCleanName extNames cleanExtName
  match rule2Exact localCleanName cands with
  | some r => some r
  | none =>
  match (if isCctv4Europe || isCctv4America then
           rule3Region (if isCctv4Europe then "欧洲" else "美洲") cands
         else none) with
  | some r => some r
  | none =>
  match (if isCctv4k then rule4Cctv4k cands else none) with
  | some r => some r
  | none =>
  match (match localTag with
         | some t => rule5Tag t cands
         | none => none) with
  | some r => some r
  | none =>
  match rule6Contain localCleanName cands with
  | some r => some r
  | none => rule7NoPlus localCleanName cands

/-- `fuzzy_match(local_clean_name, ext_names, clean_ext_name)`. -/
def fuzzy_match (localCleanName : String) (extNames : List String)
    (cleanExtName : Bool) : Option String :=
  if localCleanName == "" then none
  else
    match (if strContains localCleanName "CGTN" && strContains localCleanName "纪录"
           then cgtnRule extNames cleanExtName else none) with
    | some r => some r
    | none => fuzzyMatchRest localCleanName extNames cleanExtName

/-! ## `parse_time_str_to_timestamp` and the Interval Deduplication Engine

`datetime.strptime(time_part, "%Y%m%d%H%M%S")` compiles to the regular
expression `(\d\d\d\d)` for `%Y` followed by one group of one or two
digits for each of `%m %d %H %M %S` (each group's two-digit alternatives
are tried before its one-digit alternative), and the whole token must be
consumed.  `datetime` then validates the field ranges (year ≥ 1, month
1-12, day within the month, hour ≤ 23, minute ≤ 59, second ≤ 59 -- the
regex admits seconds 60/61 but the constructor rejects them).
`dt.timestamp()` is modelled as whole seconds since the epoch with the
naive datetime read as UTC; the process-local UTC offset the real
`timestamp()` adds is a run-wide constant, so every comparison performed
on these values is unchanged.  Only ASCII digits are modelled for `\d`. -/

def digitsVal (l : List Char) : Nat :=
  l.foldl (fun acc c => acc * 10 + (c.toNat - 48)) 0

/-- The one- and two-digit alternatives of one `strptime` field, in the
preference order of its compiled regex: each parser consumes a prefix of
the character list and yields the field value. -/
def twoDigitsIn (lo hi : Nat) (l : List Char) : Option (Nat × List Char) :=
  match l with
  | c1 :: c2 :: rest =>
      if isAsciiDigit c1 && isAsciiDigit c2 then
        let v := digitsVal [c1, c2]
        if lo ≤ v && v ≤ hi then some (v, rest) else none
      else none
  | _ => none

def oneDigitIn (lo hi : Nat) (l : List Char) : Option (Nat × List Char) :=
  match l with
  | c :: rest =>
      if isAsciiDigit c then
        let v := digitsVal [c]
        if lo ≤ v && v ≤ hi then some (v, rest) else none
      else none
  | _ => none

/-- `%m`: `1[0-2] | 0[1-9] | [1-9]`. -/
def altsMonth : List (List Char → Option (Nat × List Char)) :=
  [twoDigitsIn 10 12, twoDigitsIn 1 9, oneDigitIn 1 9]

/-- `%d`: `3[01] | [12]\d | 0[1-9] | [1-9]`. -/
def altsDay : List (List Char → Option (Nat × List Char)) :=
  [twoDigitsIn 30 31, twoDigitsIn 10 29, twoDigitsIn 1 9, oneDigitIn 1 9]

/-- `%H`: `2[0-3] | [0-1]\d | \d`. -/
def altsHour : List (List Char → Option (Nat × List Char)) :=
  [twoDigitsIn 20 23, twoDigitsIn 0 19, oneDigitIn 0 9]

/-- `%M`: `[0-5]\d | \d`. -/
def altsMinute : List (List Char → Option (Nat × List Char)) :=
  [twoDigitsIn 0 59, oneDigitIn 0 9]

/-- `%S`: `6[01] | [0-5]\d | \d`. -/
def altsSecond : List (List Char → Option (Nat × List Char)) :=
  [twoDigitsIn 60 61, twoDigitsIn 0 59, oneDigitIn 0 9]

/-- Backtracking matcher over the field groups: alternatives of the
first group are tried in order, and the first complete assignment that
consumes the whole input wins -- exactly the strategy of the backtracking
regex engine on this pattern. -/
def matchGroups : List (List (List Char → Option (Nat × List Char))) →
    List Char → Option (List Nat)
  | [], l => if l.isEmpty then some [] else none
  | g :: gs, l =>
      g.findSome? fun alt =>
        match alt l with
        | none => none
        | some (v, rest) =>
            match matchGroups gs rest with
            | none => none
            | some vs => some (v :: vs)

def isLeapYear (y : Nat) : Bool :=
  (y % 4 == 0 && y % 100 != 0) || y % 400 == 0

def daysInMonth (y m : Nat) : Nat :=
  if m == 2 then (if isLeapYear y then 29 else 28)
  else if m ∈ [4, 6, 9, 11] then 30
  else 31

/-- Days in the years before `y` (yearless day count of `datetime`). -/
def daysBeforeYear (y : Nat) : Nat :=
  let p := y - 1
  p * 365 + p / 4 - p / 100 + p / 400

/-- Days in the months of year `y` before month `m`. -/
def daysBeforeMonth (y m : Nat) : Nat :=
  ((List.range m).filter (fun k => 1 ≤ k)).foldl (fun acc k => acc + daysInMonth y k) 0

/-- The proleptic-Gregorian ordinal of a date (day 1 = 0001-01-01). -/
def dateOrdinal (y m d : Nat) : Nat :=
  daysBeforeYear y + daysBeforeMonth y m + d

/-- `dateOrdinal 1970 1 1`. -/
def epochOrdinal : Nat := 719163

/-- Seconds since the epoch of a validated broken-down time. -/
def timestampOf (y mo d h mi s : Nat) : Int :=
  ((dateOrdinal y mo d : Int) - (epochOrdinal : Int)) * 86400
    + (h : Int) * 3600 + (mi : Int) * 60 + (s : Int)

/-- `parse_time_str_to_timestamp(time_str)`: take the part before the
first space (`time_str.split(' ')[0]`), run the `strptime` pattern over
it, validate the calendar fields, and return the instant; any failure
yields `none` (the Python `except` arm). -/
def parse_time_str_to_timestamp (timeStr : String) : Option Int :=
  let timePart := timeStr.data.takeWhile (fun c => !(c == ' '))
  match timePart with
  | y1 :: y2 :: y3 :: y4 :: rest =>
      if isAsciiDigit y1 && isAsciiDigit y2 && isAsciiDigit y3 && isAsciiDigit y4 then
        let y := digitsVal [y1, y2, y3, y4]
        match matchGroups [altsMonth, altsDay, altsHour, altsMinute, altsSecond] rest with
        | some [mo, d, h, mi, s] =>
            if 1 ≤ y && 1 ≤ mo && mo ≤ 12 && 1 ≤ d && d ≤ daysInMonth y mo
                && h ≤ 23 && mi ≤ 59 && s ≤ 59 then
              some (timestampOf y mo d h mi s)
            else none
        | _ => none
      else none
  | _ => none

/-- `is_time_overlap(new_start_ts, new_end_ts, exist_start_ts, exist_end_ts)`. -/
def is_time_overlap (newStartTs newEndTs existStartTs existEndTs : Int) : Bool :=
  decide (newStartTs < existEndTs) && decide (existStartTs < newEndTs)

/-- A `programme` record as handed to the dedup engine (`new_prog`);
every field is produced by `.get(...)`, hence optional. -/
structure Prog where
  channel : Option String
  start : Option String
  stop : Option String
  title : Option String
deriving DecidableEq

instance : Inhabited Prog := ⟨⟨none, none, none, none⟩⟩

/-- Python truthiness of an optional string (`not x` for `None`/`""`). -/
def truthyStr : Option String → Bool
  | none => false
  | some s => !(s == "")

/-- First-match lookup in an insertion-ordered association list
(Python `dict` access). -/
def alistLookup {α : Type} : List (String × α) → String → Option α
  | [], _ => none
  | (k, v) :: rest, key => if k == key then some v else alistLookup rest key

/-- `d[key] = v` on an insertion-ordered association list: replace the
value at the first occurrence of the key, else append a new entry. -/
def alistSet {α : Type} : List (String × α) → String → α → List (String × α)
  | [], key, v => [(key, v)]
  | (k, w) :: rest, key, v =>
      if k == key then (k, v) :: rest else (k, w) :: alistSet rest key v

/-- The mutable state owned by the Interval Deduplication Engine:
`programme_list` and `channel_time_ranges`. -/
structure DedupState where
  programmeList : List Prog
  channelTimeRanges : List (String × List (Int × Int))
deriving DecidableEq

instance : Inhabited DedupState := ⟨⟨[], []⟩⟩

/-- `add_program_if_no_time_overlap(programme_list, channel_time_ranges,
new_prog)`: returns the Python return value together with the state
after the call. -/
def add_program_if_no_time_overlap (st : DedupState) (newProg : Prog) :
    Bool × DedupState :=
  if !truthyStr newProg.channel || !truthyStr newProg.start
      || !truthyStr newProg.stop then
    (false, st)
  else
    let channel := newProg.channel.getD ""
    match parse_time_str_to_timestamp (newProg.start.getD ""),
        parse_time_str_to_timestamp (newProg.stop.getD "") with
    | some newStartTs, some newEndTs =>
        let st1 :=
          if (alistLookup st.channelTimeRanges channel).isNone then
            { st with channelTimeRanges := alistSet st.channelTimeRanges channel [] }
          else st
        let ranges := (alistLookup st1.channelTimeRanges channel).getD []
        if ranges.any (fun r => is_time_overlap newStartTs newEndTs r.1 r.2) then
          (false, st1)
        else
          (true,
           { programmeList := st1.programmeList ++ [newProg],
             channelTimeRanges :=
               alistSet st1.channelTimeRanges channel (ranges ++ [(newStartTs, newEndTs)]) })
    | _, _ => (false, st)

/-- Run a sequence of submissions through the dedup engine starting
from the empty state. -/
def runProgs (progs : List Prog) : DedupState :=
  progs.foldl (fun st p => (add_program_if_no_time_overlap st p).2) ⟨[], []⟩

/-! ## `generate_unique_ext_channel_id` (the External Identity Allocator)

The Python `while True` loop probes `prefix1`, `prefix2`, ... and
returns the first candidate outside `existing_ids`.  The loop is
modelled with explicit fuel; `existing.length + 1` probes always
suffice because the candidate strings are pairwise distinct
(`Nat.repr` is injective, proved below), so the fuel-exhausted fallback
arm is unreachable. -/

def genIdLoop (existing : List String) (pre : String) : Nat → Nat → String
  | 0, counter => pre ++ Nat.repr counter
  | fuel + 1, counter =>
      let newId := pre ++ Nat.repr counter
      if newId ∈ existing then genIdLoop existing pre fuel (counter + 1) else newId

/-- `generate_unique_ext_channel_id(existing_ids, prefix="ext_")`. -/
def generate_unique_ext_channel_id (existing : List String)
    (pre : String := "ext_") : String :=
  genIdLoop existing pre (existing.length + 1) 1

/-- Decimal digits of `n`, most significant first (the mathematical
content of `Nat.toDigitsCore`, without fuel or accumulator). -/
def natDigits (n : Nat) : List Char :=
  if h : n < 10 then [Nat.digitChar n]
  else
    have hd : n / 10 < n := Nat.div_lt_self (by omega) (by omega)
    natDigits (n / 10) ++ [Nat.digitChar (n % 10)]

/-! ## The multi-source merge loop of `epg_main` (step 4)

The state below captures the mutable variables of the step-4 loop that
the claims speak about.  `unmatched_bjcul_channels` holds the channel
dicts; `pending_channels` (and each `next_pending_channels`) holds
references to those same dicts, so the in-place update
`channel["local_num"] = ...` is visible through both lists.  This
aliasing is modelled by a `store : List Channel` for the dicts and
index lists for the references.  The lists `global_matched_channels` /
`global_final_unmatched_channels`, the per-source log lists, and
`all_external_channels` / `ext_final_id_to_info` (consumed only by the
XML writer, outside the reconciliation core) are omitted. -/

/-- One channel dict of `unmatched_bjcul_channels`. -/
structure Channel where
  chanType : String
  rawName : String
  cleanName : String
  category : String
  rtpUrl : String
  localNum : Option String
deriving DecidableEq

instance : Inhabited Channel := ⟨⟨"", "", "", "", "", none⟩⟩

/-- One record of a source's `full_program_info`. -/
structure ExtProg where
  channelId : String
  start : String
  stop : String
  title : String
deriving DecidableEq

/-- One record of a source's `full_channel_info`. -/
structure ExtChannelInfo where
  cid : String
  mainName : String
  aliases : List String
deriving DecidableEq

/-- The data of one enabled external source after download and
`parse_external_epg` (a source that fails to download or parse is
`continue`d over and therefore simply absent from the source list). -/
structure SourceData where
  isOfficial : Bool
  cleanName : Bool
  renameRules : List (String × String)
  epgMap : List (String × List ExtProg)
  identifiers : List String
  idToName : List (String × String)
  fullChannelInfo : List (String × ExtChannelInfo)
  fullProgramInfo : List ExtProg
deriving DecidableEq

/-- The step-4 loop state. -/
structure Step4State where
  store : List Channel
  pending : List Nat
  dedup : DedupState
  officialSet : List String
  hasExternalSingle : List String
  hasExternalMulti : List String
  tempCounter : Nat
  matchedLocalNums : List String
  extIdMapping : List (String × String)
  extNameToFinalId : List (String × String)
  allExternalPrograms : List Prog
deriving DecidableEq

/-- The temporary-identifier prefix `unm_` (`temp_local_num_prefix`). -/
def tempPref : String := "unm_"

/-- `f"{temp_local_num_prefix}{temp_num_counter}"`. -/
def tempId (k : Nat) : String := tempPref ++ Nat.repr k

/-- The rename map built from a source's `channel_rename` rules:
`rename_map[old.strip()] = new.strip()` for rules with truthy sides. -/
def buildRenameMap (rules : List (String × String)) : List (String × String) :=
  rules.foldl
    (fun m r =>
      if !(r.1 == "") && !(r.2 == "") then alistSet m (pyStrip r.1) (pyStrip r.2) else m)
    []

def renameVia (m : List (String × String)) (s : String) : String :=
  (alistLookup m s).getD s

/-- Deduplicating append used for the renamed identifier list. -/
def dedupAppend (l : List String) (s : String) : List String :=
  if s ∈ l then l else l ++ [s]

/-- The channel-rename transformation applied to a source's parsed data
(the `channel_rename` block of `epg_main`). -/
def renameSource (src : SourceData) : SourceData :=
  if src.renameRules.isEmpty then src
  else
    let m := buildRenameMap src.renameRules
    if m.isEmpty then src
    else
      { src with
        epgMap :=
          src.epgMap.foldl
            (fun acc kv =>
              let newKey := renameVia m kv.1
              match alistLookup acc newKey with
              | some old => alistSet acc newKey (old ++ kv.2)
              | none => acc ++ [(newKey, kv.2)])
            [],
        identifiers :=
          src.identifiers.foldl (fun acc i => dedupAppend acc (renameVia m i)) [],
        fullChannelInfo :=
          src.fullChannelInfo.map fun kv =>
            (kv.1,
             { kv.2 with
               mainName := renameVia m kv.2.mainName,
               aliases := kv.2.aliases.foldl (fun acc a => dedupAppend acc (renameVia m a)) [] }),
        idToName := src.idToName.map fun kv => (kv.1, renameVia m kv.2) }

/-- `existing_ids` as collected at the head of the
`ENABLE_KEEP_OTHER_CHANNELS` block: matched local numbers, temporary
`unm_` numbers visible in `unmatched_bjcul_channels`, and the ids
already produced by `ext_id_mapping`. -/
def computeExistingIds (st : Step4State) : List String :=
  st.matchedLocalNums
    ++ (st.store.filterMap fun c =>
         match c.localNum with
         | some n => if !(n == "") && strStartsWith n tempPref then some n else none
         | none => none)
    ++ st.extIdMapping.map (·.2)

/-- Processing of one `full_channel_info` entry inside the
`ENABLE_KEEP_OTHER_CHANNELS` block: reuse the id of an already-seen
resolved name, or mint a fresh one and register it. -/
def processExtChannel (acc : Step4State × List String)
    (entry : String × ExtChannelInfo) : Step4State × List String :=
  let st := acc.1
  let existing := acc.2
  let extMainName := pyStrip entry.2.mainName
  match alistLookup st.extNameToFinalId extMainName with
  | some finalId =>
      ({ st with extIdMapping := alistSet st.extIdMapping entry.1 finalId }, existing)
  | none =>
      let newExtId := generate_unique_ext_channel_id existing
      ({ st with
         extIdMapping := alistSet st.extIdMapping entry.1 newExtId,
         extNameToFinalId := alistSet st.extNameToFinalId extMainName newExtId },
       existing ++ [newExtId])

/-- The whole `ENABLE_KEEP_OTHER_CHANNELS` block of one source
(`ENABLE_KEEP_OTHER_CHANNELS` is `True` in `EPG_CONFIG`): allocate ids
for the source's channels, then requeue its programs under final ids. -/
def processKeepOther (st : Step4State) (src : SourceData) : Step4State :=
  let stApp := (src.fullChannelInfo.foldl processExtChannel (st, computeExistingIds st)).1
  { stApp with
    allExternalPrograms :=
      stApp.allExternalPrograms
        ++ src.fullProgramInfo.filterMap fun p =>
             match alistLookup stApp.extIdMapping p.channelId with
             | some finalCid =>
                 if finalCid == "" then none
                 else some ⟨some finalCid, some p.start, some p.stop, some p.title⟩
             | none => none }

/-- `raw_name in EXCLUDE_MULTI_SOURCE_CHANNELS or channel_category in
EXCLUDE_MULTI_SOURCE_CATEGORIES` (`is_exclude_multi`). -/
def isExcludeMulti (c : Channel) : Bool :=
  c.rawName ∈ EXCLUDE_MULTI_SOURCE_CHANNELS
    || c.category ∈ EXCLUDE_MULTI_SOURCE_CATEGORIES

/-- Python `x in someSet` for an optional string against a string set
(`None` is never a member: the sets only ever receive strings). -/
def optMem (x : Option String) (l : List String) : Bool :=
  match x with
  | some s => s ∈ l
  | none => false

/-- Feed a list of candidate programs through the dedup engine under
channel key `num`, counting acceptances (`new_prog_count`). -/
def feedProgs (d : DedupState) (num : String) (extProgs : List ExtProg) :
    DedupState × Nat :=
  extProgs.foldl
    (fun p prog =>
      let r := add_program_if_no_time_overlap p.1
        ⟨some num, some prog.start, some prog.stop, some prog.title⟩
      (r.2, if r.1 then p.2 + 1 else p.2))
    (d, 0)

/-- Accumulator of the `for channel in pending_channels` loop: the
evolving state plus `next_pending_channels` (indices into the store).
The per-source counters and the log-only lists are omitted. -/
structure PendAcc where
  st : Step4State
  nextPending : List Nat
deriving DecidableEq

/-- The body of `for channel in pending_channels` for one channel. -/
def processChannel (src : SourceData) (acc : PendAcc) (idx : Nat) : PendAcc :=
  let st := acc.st
  let ch := st.store.getD idx default
  let localNum := ch.localNum
  let isEx := isExcludeMulti ch
  let skipOfficial := optMem localNum st.officialSet
  let skipSingle := isEx && optMem localNum st.hasExternalSingle
  if skipOfficial || skipSingle then
    -- a skipped exclude-multi channel is dropped from the next pending list
    { acc with nextPending := if !isEx then acc.nextPending ++ [idx] else acc.nextPending }
  else
    if src.isOfficial && truthyStr localNum
        && !strStartsWith (localNum.getD "") tempPref then
      let n := localNum.getD ""
      if n ∈ src.identifiers && !((alistLookup src.epgMap n).getD []).isEmpty then
        let fed := feedProgs st.dedup n ((alistLookup src.epgMap n).getD [])
        let channelMatched := decide (0 < fed.2)
        let st' :=
          { st with
            dedup := fed.1,
            hasExternalSingle :=
              if channelMatched && isEx then st.hasExternalSingle ++ [n]
              else st.hasExternalSingle,
            hasExternalMulti :=
              if channelMatched && !isEx then st.hasExternalMulti ++ [n]
              else st.hasExternalMulti }
        ⟨st', if !isEx then acc.nextPending ++ [idx]
              else if !channelMatched then acc.nextPending ++ [idx]
              else acc.nextPending⟩
      else
        { acc with nextPending := acc.nextPending ++ [idx] }
    else
      let matchExtName := fuzzy_match ch.cleanName src.identifiers src.cleanName
      if truthyStr matchExtName
          && (alistLookup src.epgMap (matchExtName.getD "")).isSome then
        let extProgs := (alistLookup src.epgMap (matchExtName.getD "")).getD []
        if !extProgs.isEmpty then
          let minted := !truthyStr localNum
          let num := if minted then tempId st.tempCounter else localNum.getD ""
          let st1 :=
            if minted then
              { st with
                tempCounter := st.tempCounter + 1,
                store := st.store.set idx { ch with localNum := some num } }
            else st
          let fed := feedProgs st1.dedup num extProgs
          let channelMatched := decide (0 < fed.2)
          let st' :=
            { st1 with
              dedup := fed.1,
              hasExternalSingle :=
                if channelMatched && isEx then st1.hasExternalSingle ++ [num]
                else st1.hasExternalSingle,
              hasExternalMulti :=
                if channelMatched && !isEx then st1.hasExternalMulti ++ [num]
                else st1.hasExternalMulti }
          ⟨st', if !isEx then acc.nextPending ++ [idx]
                else if !channelMatched then acc.nextPending ++ [idx]
                else acc.nextPending⟩
        else
          { acc with nextPending := acc.nextPending ++ [idx] }
      else
        { acc with nextPending := acc.nextPending ++ [idx] }

/-- The whole `for channel in pending_channels` loop, ending with
`pending_channels = next_pending_channels`. -/
def processPending (st : Step4State) (src : SourceData) : Step4State :=
  let acc := st.pending.foldl (processChannel src) ⟨st, []⟩
  { acc.st with pending := acc.nextPending }

/-- One iteration of `for source_idx, epg_source in
enumerate(enabled_sources)` for a source that downloaded and parsed
successfully: validity guard, rename, the keep-other-channels
allocation block, then the pending-channel loop. -/
def processSource (st : Step4State) (src0 : SourceData) : Step4State :=
  if src0.epgMap.isEmpty || src0.identifiers.isEmpty then st
  else
    let src := renameSource src0
    processPending (processKeepOther st src) src

/-- The step-4 source loop, including the early `break` when no channel
is pending any more. -/
def runSources (st : Step4State) : List SourceData → Step4State
  | [] => st
  | src :: rest =>
      if st.pending.isEmpty then st
      else runSources (processSource st src) rest

/-- Number of programmes stored for a given output channel id. -/
def progCount (st : Step4State) (id : String) : Nat :=
  st.dedup.programmeList.countP (fun p => p.channel == some id)

/-- Number of indices in `l` whose store entry carries local number
`id` (the pending entries that can still feed programmes under that
output id). -/
def keyCount (st : Step4State) (id : String) (l : List Nat) : Nat :=
  l.countP (fun k => decide ((st.store.getD k default).localNum = some id))

/-! # Theorems -/

/-! ## Injectivity of the decimal rendering used for minted identifiers -/

theorem toDigitsCore_append (f : Nat) : ∀ (n : Nat) (acc : List Char),
    Nat.toDigitsCore 10 f n acc = Nat.toDigitsCore 10 f n [] ++ acc := by
  induction f with
  | zero => intro n acc; simp [Nat.toDigitsCore]
  | succ f ih =>
      intro n acc
      simp only [Nat.toDigitsCore]
      by_cases h : n / 10 = 0
      · simp [h]
      · simp only [h, if_false]
        rw [ih (n / 10) (Nat.digitChar (n % 10) :: acc),
          ih (n / 10) [Nat.digitChar (n % 10)], List.append_assoc]
        rfl

theorem natDigits_lt {n : Nat} (h : n < 10) : natDigits n = [Nat.digitChar n] := by
  rw [natDigits]; simp [h]

theorem natDigits_ge {n : Nat} (h : ¬n < 10) :
    natDigits n = natDigits (n / 10) ++ [Nat.digitChar (n % 10)] := by
  rw [natDigits]; simp [h]

theorem toDigitsCore_eq_natDigits (f : Nat) : ∀ n : Nat, n < f →
    Nat.toDigitsCore 10 f n [] = natDigits n := by
  induction f with
  | zero => intro n hn; omega
  | succ f ih =>
      intro n hn
      by_cases h : n < 10
      · have hdiv : n / 10 = 0 := Nat.div_eq_of_lt h
        have hmod : n % 10 = n := Nat.mod_eq_of_lt h
        rw [natDigits_lt h]
        simp [Nat.toDigitsCore, hdiv, hmod]
      · have hdiv : n / 10 ≠ 0 := by omega
        have hlt : n / 10 < f := by
          have := Nat.div_lt_self (by omega : 0 < n) (by omega : 1 < 10)
          omega
        rw [natDigits_ge h]
        simp only [Nat.toDigitsCore, hdiv, if_false]
        rw [toDigitsCore_append f (n / 10) [Nat.digitChar (n % 10)], ih (n / 10) hlt]

theorem natDigits_ne_nil (n : Nat) : natDigits n ≠ [] := by
  by_cases h : n < 10
  · rw [natDigits_lt h]; simp
  · rw [natDigits_ge h]; simp

theorem digitChar_inj_lt : ∀ m : Nat, m < 10 → ∀ k : Nat, k < 10 →
    Nat.digitChar m = Nat.digitChar k → m = k := by decide

theorem natDigits_inj : ∀ m n : Nat, natDigits m = natDigits n → m = n := by
  intro m
  induction m using Nat.strong_induction_on with
  | _ m ih =>
    intro n h
    by_cases hm : m < 10 <;> by_cases hn : n < 10
    · rw [natDigits_lt hm, natDigits_lt hn] at h
      exact digitChar_inj_lt m hm n hn (List.singleton_injective h)
    · rw [natDigits_lt hm, natDigits_ge hn] at h
      have hlen := congrArg List.length h
      simp at hlen
      exact absurd hlen.symm.symm (natDigits_ne_nil (n / 10))
    · rw [natDigits_ge hm, natDigits_lt hn] at h
      have hlen := congrArg List.length h
      simp at hlen
      exact absurd hlen (natDigits_ne_nil (m / 10))
    · rw [natDigits_ge hm, natDigits_ge hn] at h
      obtain ⟨h1, h2⟩ := List.append_inj' h (by simp)
      have hmod : m % 10 = n % 10 := by
        have hc := List.singleton_injective h2
        exact digitChar_inj_lt _ (Nat.mod_lt _ (by omega)) _ (Nat.mod_lt _ (by omega)) hc
      have hdivlt : m / 10 < m := Nat.div_lt_self (by omega) (by omega)
      have hdiv : m / 10 = n / 10 := ih (m / 10) hdivlt (n / 10) h1
      have e1 := Nat.div_add_mod m 10
      have e2 := Nat.div_add_mod n 10
      omega

theorem natRepr_inj {m n : Nat} (h : Nat.repr m = Nat.repr n) : m = n := by
  unfold Nat.repr Nat.toDigits at h
  have hl := List.asString_inj.mp h
  rw [toDigitsCore_eq_natDigits (m + 1) m (by omega),
    toDigitsCore_eq_natDigits (n + 1) n (by omega)] at hl
  exact natDigits_inj m n hl

theorem string_append_data (s t : String) : (s ++ t).data = s.data ++ t.data := rfl

theorem appended_repr_inj (pre : String) {m n : Nat}
    (h : pre ++ Nat.repr m = pre ++ Nat.repr n) : m = n := by
  apply natRepr_inj
  have hd := congrArg String.data h
  rw [string_append_data, string_append_data] at hd
  exact String.ext (List.append_cancel_left hd)

/-! ## The External Identity Allocator (claim C10) -/

theorem genIdLoop_spec (existing : List String) (pre : String) :
    ∀ (fuel counter : Nat),
      (∃ j, j < fuel ∧ pre ++ Nat.repr (counter + j) ∉ existing) →
      ∃ j, j < fuel ∧ pre ++ Nat.repr (counter + j) ∉ existing ∧
        (∀ i, i < j → pre ++ Nat.repr (counter + i) ∈ existing) ∧
        genIdLoop existing pre fuel counter = pre ++ Nat.repr (counter + j) := by
  intro fuel
  induction fuel with
  | zero => intro counter h; obtain ⟨j, hj, _⟩ := h; omega
  | succ fuel ih =>
      intro counter h
      by_cases hmem : pre ++ Nat.repr counter ∈ existing
      · obtain ⟨j, hj, hfree⟩ := h
        have hj0 : j ≠ 0 := by
          intro h0; rw [h0] at hfree; simp at hfree; exact hfree hmem
        have hex : ∃ j', j' < fuel ∧ pre ++ Nat.repr (counter + 1 + j') ∉ existing := by
          refine ⟨j - 1, by omega, ?_⟩
          have : counter + 1 + (j - 1) = counter + j := by omega
          rw [this]; exact hfree
        obtain ⟨j', hj', hfree', hall', heq'⟩ := ih (counter + 1) hex
        refine ⟨j' + 1, by omega, ?_, ?_, ?_⟩
        · have : counter + (j' + 1) = counter + 1 + j' := by omega
          rw [this]; exact hfree'
        · intro i hi
          cases i with
          | zero => simpa using hmem
          | succ i =>
              have : counter + (i + 1) = counter + 1 + i := by omega
              rw [this]; exact hall' i (by omega)
        · show genIdLoop existing pre (fuel + 1) counter = _
          rw [genIdLoop]
          simp only [hmem, if_true]
          rw [heq']
          have harg : counter + 1 + j' = counter + (j' + 1) := by omega
          rw [harg]
      · refine ⟨0, by omega, by simpa using hmem, by omega, ?_⟩
        rw [genIdLoop]
        simp [hmem]

theorem genId_exists_free (existing : List String) (pre : String) :
    ∃ j, j < existing.length + 1 ∧ pre ++ Nat.repr (1 + j) ∉ existing := by
  by_contra hcon
  push_neg at hcon
  have hall : ∀ j, j < existing.length + 1 → pre ++ Nat.repr (1 + j) ∈ existing := by
    intro j hj; exact hcon j hj
  set L := (List.range (existing.length + 1)).map (fun j => pre ++ Nat.repr (1 + j)) with hL
  have hnodup : L.Nodup := by
    apply List.Nodup.map
    · intro a b hab
      have := appended_repr_inj pre hab
      omega
    · exact List.nodup_range _
  have hsub : L ⊆ existing := by
    intro x hx
    rw [hL] at hx
    simp only [List.mem_map, List.mem_range] at hx
    obtain ⟨j, hj, rfl⟩ := hx
    exact hall j hj
  have hcard : L.toFinset.card = existing.length + 1 := by
    rw [List.toFinset_card_of_nodup hnodup, hL]
    simp
  have hsubF : L.toFinset ⊆ existing.toFinset := by
    intro x hx
    rw [List.mem_toFinset] at hx ⊢
    exact hsub hx
  have hle := Finset.card_le_card hsubF
  have hle2 : existing.toFinset.card ≤ existing.length := existing.toFinset_card_le
  omega

/-- C10.  `generate_unique_ext_channel_id(existing_ids, prefix)`
terminates (it is a total function of its fuelled model, and the fuel
bound `existing.length + 1` is never exhausted), and it returns
`prefix` followed by the smallest positive integer `n` such that the
concatenation is not a member of `existing_ids`; in particular the
returned identifier is not in `existing_ids`. -/
theorem generate_unique_ext_channel_id_least (existing : List String) (pre : String) :
    ∃ n : Nat, 1 ≤ n ∧
      generate_unique_ext_channel_id existing pre = pre ++ Nat.repr n ∧
      pre ++ Nat.repr n ∉ existing ∧
      (∀ m, 1 ≤ m → m < n → pre ++ Nat.repr m ∈ existing) := by
  obtain ⟨j, hj, hfree⟩ := genId_exists_free existing pre
  obtain ⟨j', hj', hfree', hall', heq'⟩ :=
    genIdLoop_spec existing pre (existing.length + 1) 1 ⟨j, hj, hfree⟩
  refine ⟨1 + j', by omega, heq', hfree', ?_⟩
  intro m hm1 hmlt
  have h := hall' (m - 1) (by omega)
  have : 1 + (m - 1) = m := by omega
  rwa [this] at h

/-- The returned identifier is never a member of `existing_ids`. -/
theorem generate_unique_ext_channel_id_not_mem (existing : List String) (pre : String) :
    generate_unique_ext_channel_id existing pre ∉ existing := by
  obtain ⟨n, _, heq, hfree, _⟩ := generate_unique_ext_channel_id_least existing pre
  rw [heq]; exact hfree

/-! ## Association-list lemmas -/

theorem alistLookup_set_self {α : Type} (l : List (String × α)) (k : String) (v : α) :
    alistLookup (alistSet l k v) k = some v := by
  induction l with
  | nil => simp [alistSet, alistLookup]
  | cons kv rest ih =>
      obtain ⟨k', w⟩ := kv
      by_cases hk : k' = k
      · simp [alistSet, alistLookup, hk]
      · simp [alistSet, alistLookup, hk, ih]

theorem alistLookup_set_ne {α : Type} (l : List (String × α)) (k k' : String) (v : α)
    (h : k' ≠ k) : alistLookup (alistSet l k v) k' = alistLookup l k' := by
  induction l with
  | nil =>
      simp only [alistSet, alistLookup]
      simp [Ne.symm h]
  | cons kv rest ih =>
      obtain ⟨k0, w⟩ := kv
      by_cases hk : k0 = k
      · subst hk
        simp only [alistSet, beq_self_eq_true, if_true, alistLookup]
        by_cases hk2 : k0 = k'
        · exact absurd hk2.symm h
        · simp [show (k0 == k') = false from by simp [hk2]]
      · simp only [alistSet, show (k0 == k) = false from by simp [hk], if_false, alistLookup]
        by_cases hk2 : k0 = k'
        · simp [hk2]
        · simp [show (k0 == k') = false from by simp [hk2], ih]

/-! ## C5: rejection leaves the dedup state untouched -/

/-- C5.  Whenever `add_program_if_no_time_overlap` returns `False` --
missing `channel`/`start`/`stop`, a timestamp that fails to parse, or a
time overlap with a stored interval of the same channel -- the call
mutates no state: `programme_list` and `channel_time_ranges` are
exactly as they were before the call. -/
theorem c5_reject_no_mutation (st : DedupState) (p : Prog)
    (h : (add_program_if_no_time_overlap st p).1 = false) :
    (add_program_if_no_time_overlap st p).2 = st := by
  by_cases hguard :
      (!truthyStr p.channel || !truthyStr p.start || !truthyStr p.stop) = true
  · simp [add_program_if_no_time_overlap, hguard]
  · rw [Bool.not_eq_true] at hguard
    cases hs : parse_time_str_to_timestamp (p.start.getD "") with
    | none => simp [add_program_if_no_time_overlap, hguard, hs]
    | some ns =>
        cases he : parse_time_str_to_timestamp (p.stop.getD "") with
        | none => simp [add_program_if_no_time_overlap, hguard, hs, he]
        | some ne =>
            by_cases hlk : (alistLookup st.channelTimeRanges (p.channel.getD "")).isNone
            · -- the channel key is fresh: its list is `[]`, so the program is accepted
              rw [Option.isNone_iff_eq_none] at hlk
              have hlk2 : alistLookup
                  (alistSet st.channelTimeRanges (p.channel.getD "") [])
                  (p.channel.getD "") = some [] := alistLookup_set_self _ _ _
              simp [add_program_if_no_time_overlap, hguard, hs, he, hlk, hlk2] at h
            · rw [Bool.not_eq_true, Option.isNone_eq_false_iff,
                Option.isSome_iff_exists] at hlk
              obtain ⟨rs, hrs⟩ := hlk
              by_cases hov : rs.any (fun r => is_time_overlap ns ne r.1 r.2) = true
              · simp [add_program_if_no_time_overlap, hguard, hs, he, hrs, hov]
              · simp [add_program_if_no_time_overlap, hguard, hs, he, hrs, hov] at h

/-- C5 witness: a concrete rejected call (missing `stop`) leaves the
empty state unchanged. -/
theorem c5_reject_no_mutation_witness :
    (add_program_if_no_time_overlap ⟨[], []⟩
        ⟨some "ch1", some "20250101080000 +0800", none, none⟩).1 = false ∧
    (add_program_if_no_time_overlap ⟨[], []⟩
        ⟨some "ch1", some "20250101080000 +0800", none, none⟩).2 = ⟨[], []⟩ :=
  ⟨by decide,
   c5_reject_no_mutation ⟨[], []⟩
     ⟨some "ch1", some "20250101080000 +0800", none, none⟩ (by decide)⟩

/-! ## C9: the normalizer is total and maps empty input to the empty string -/

/-- C9.  `clean_channel_name` is a total Lean function (hence returns
normally on every input, the model of "never raises"); on `None` and on
the empty string it returns the empty string. -/
theorem c9_clean_channel_name_empty :
    clean_channel_name none = "" ∧ clean_channel_name (some "") = "" :=
  ⟨rfl, rfl⟩

/-! ## C2: no `start < end` validity check exists -/

/-- Counterexample to C2: the spec's own scenario
(`start="20250101080000 +0800"`, `stop="20250101070000 +0800"`, end one
hour before start).  Both timestamps parse, parsed start is strictly
greater than parsed end, yet on a fresh channel
`add_program_if_no_time_overlap` returns `True` and stores the entry:
there is no `start < end` validity check in the dedup engine. -/
theorem c2_counterexample :
    parse_time_str_to_timestamp "20250101080000 +0800" = some 1735718400 ∧
    parse_time_str_to_timestamp "20250101070000 +0800" = some 1735714800 ∧
    (1735714800 : Int) < 1735718400 ∧
    (add_program_if_no_time_overlap ⟨[], []⟩
        ⟨some "ch1", some "20250101080000 +0800", some "20250101070000 +0800",
         some "节目"⟩).1 = true ∧
    (add_program_if_no_time_overlap ⟨[], []⟩
        ⟨some "ch1", some "20250101080000 +0800", some "20250101070000 +0800",
         some "节目"⟩).2.programmeList =
      [⟨some "ch1", some "20250101080000 +0800", some "20250101070000 +0800",
        some "节目"⟩] := by
  refine ⟨by decide, by decide, by decide, by decide, by decide⟩

/-- C2 amended: the dedup engine performs no `start < end` check.  A
program whose fields are present and whose timestamps both parse is
accepted and stored whenever it does not overlap the stored intervals
of its channel -- with no constraint relating the parsed start and end
(in particular a zero-length or end-before-start interval is accepted
on a channel with no conflicting stored interval). -/
theorem c2_amended_no_order_check (st : DedupState) (p : Prog)
    (hch : truthyStr p.channel = true) (hst : truthyStr p.start = true)
    (hsp : truthyStr p.stop = true) (ns ne : Int)
    (hns : parse_time_str_to_timestamp (p.start.getD "") = some ns)
    (hne : parse_time_str_to_timestamp (p.stop.getD "") = some ne)
    (hnov : ∀ r ∈ (alistLookup st.channelTimeRanges (p.channel.getD "")).getD [],
        is_time_overlap ns ne r.1 r.2 = false) :
    (add_program_if_no_time_overlap st p).1 = true ∧
    (add_program_if_no_time_overlap st p).2.programmeList
      = st.programmeList ++ [p] := by
  have hguard : (!truthyStr p.channel || !truthyStr p.start || !truthyStr p.stop) = false := by
    simp [hch, hst, hsp]
  by_cases hlk : (alistLookup st.channelTimeRanges (p.channel.getD "")).isNone
  · rw [Option.isNone_iff_eq_none] at hlk
    have hlk2 : alistLookup
        (alistSet st.channelTimeRanges (p.channel.getD "") [])
        (p.channel.getD "") = some [] := alistLookup_set_self _ _ _
    simp [add_program_if_no_time_overlap, hguard, hns, hne, hlk, hlk2]
  · rw [Bool.not_eq_true, Option.isNone_eq_false_iff, Option.isSome_iff_exists] at hlk
    obtain ⟨rs, hrs⟩ := hlk
    have hov : rs.any (fun r => is_time_overlap ns ne r.1 r.2) = false := by
      rw [List.any_eq_false]
      intro r hr
      have := hnov r (by rw [hrs] at *; simpa using hr)
      simp [this]
    simp [add_program_if_no_time_overlap, hguard, hns, hne, hrs, hov]

/-- C2 amended witness: the end-before-start program of the
counterexample is accepted on the empty state. -/
theorem c2_amended_witness :
    (add_program_if_no_time_overlap ⟨[], []⟩
        ⟨some "ch1", some "20250101080000 +0800", some "20250101070000 +0800",
         some "节目"⟩).1 = true ∧
    (add_program_if_no_time_overlap ⟨[], []⟩
        ⟨some "ch1", some "20250101080000 +0800", some "20250101070000 +0800",
         some "节目"⟩).2.programmeList =
      [⟨some "ch1", some "20250101080000 +0800", some "20250101070000 +0800",
        some "节目"⟩] :=
  c2_amended_no_order_check ⟨[], []⟩
    ⟨some "ch1", some "20250101080000 +0800", some "20250101070000 +0800", some "节目"⟩
    (by decide) (by decide) (by decide) 1735718400 1735714800
    (by decide) (by decide) (by decide)

/-! ## C1: stored intervals of one channel never overlap pairwise -/

/-- All interval lists stored in a dedup state are pairwise
non-overlapping under the half-open test. -/
def dedupInv (st : DedupState) : Prop :=
  ∀ c rs, alistLookup st.channelTimeRanges c = some rs →
    rs.Pairwise (fun a b => ¬(a.1 < b.2 ∧ b.1 < a.2))

theorem dedupInv_empty : dedupInv ⟨[], []⟩ := by
  intro c rs h
  simp [alistLookup] at h

theorem dedupInv_step (st : DedupState) (p : Prog) (hinv : dedupInv st) :
    dedupInv (add_program_if_no_time_overlap st p).2 := by
  by_cases hguard :
      (!truthyStr p.channel || !truthyStr p.start || !truthyStr p.stop) = true
  · simpa [add_program_if_no_time_overlap, hguard] using hinv
  · rw [Bool.not_eq_true] at hguard
    cases hs : parse_time_str_to_timestamp (p.start.getD "") with
    | none => simpa [add_program_if_no_time_overlap, hguard, hs] using hinv
    | some ns =>
        cases he : parse_time_str_to_timestamp (p.stop.getD "") with
        | none => simpa [add_program_if_no_time_overlap, hguard, hs, he] using hinv
        | some ne =>
            by_cases hlk : (alistLookup st.channelTimeRanges (p.channel.getD "")).isNone
            · rw [Option.isNone_iff_eq_none] at hlk
              have hlk2 : alistLookup
                  (alistSet st.channelTimeRanges (p.channel.getD "") [])
                  (p.channel.getD "") = some [] := alistLookup_set_self _ _ _
              simp only [add_program_if_no_time_overlap, hguard, Bool.false_eq_true,
                if_false, hs, he, hlk, Option.isNone_none, if_true, hlk2,
                Option.getD_some, List.any_nil, List.nil_append]
              intro c rs hrs
              by_cases hc : c = p.channel.getD ""
              · subst hc
                rw [alistLookup_set_self] at hrs
                cases hrs
                simp
              · rw [alistLookup_set_ne _ _ _ _ hc,
                  alistLookup_set_ne _ _ _ _ hc] at hrs
                exact hinv c rs hrs
            · rw [Bool.not_eq_true, Option.isNone_eq_false_iff,
                Option.isSome_iff_exists] at hlk
              obtain ⟨rs0, hrs0⟩ := hlk
              by_cases hov : rs0.any (fun r => is_time_overlap ns ne r.1 r.2) = true
              · simpa [add_program_if_no_time_overlap, hguard, hs, he, hrs0, hov]
                  using hinv
              · rw [Bool.not_eq_true] at hov
                simp only [add_program_if_no_time_overlap, hguard, Bool.false_eq_true,
                  if_false, hs, he, hrs0, Option.isNone_some, if_false,
                  Option.getD_some, hov]
                intro c rs hrs
                by_cases hc : c = p.channel.getD ""
                · subst hc
                  rw [alistLookup_set_self] at hrs
                  cases hrs
                  rw [List.pairwise_append]
                  refine ⟨hinv _ _ hrs0, by simp, ?_⟩
                  intro a ha b hb
                  simp only [List.mem_singleton] at hb
                  subst hb
                  rw [List.any_eq_false] at hov
                  have hna := hov a ha
                  intro hcon
                  apply hna
                  simp only [is_time_overlap, Bool.and_eq_true, decide_eq_true_eq]
                  exact ⟨hcon.2, hcon.1⟩
                · rw [alistLookup_set_ne _ _ _ _ hc] at hrs
                  exact hinv c rs hrs

theorem runProgs_foldl_inv (progs : List Prog) :
    ∀ st : DedupState, dedupInv st →
      dedupInv (progs.foldl (fun s p => (add_program_if_no_time_overlap s p).2) st) := by
  induction progs with
  | nil => intro st h; simpa using h
  | cons p rest ih =>
      intro st h
      simpa using ih _ (dedupInv_step st p h)

/-- C1.  Starting from the empty state, after any sequence of calls to
`add_program_if_no_time_overlap`, for every channel key any two
distinct stored intervals `(s1, e1)` and `(s2, e2)` of that channel
satisfy `not (s1 < e2 and s2 < e1)`: no stored pair overlaps under the
half-open test, so of two overlapping submissions for the same channel
only the first is accepted. -/
theorem c1_no_stored_overlap (progs : List Prog) (c : String)
    (rs : List (Int × Int))
    (hrs : alistLookup (runProgs progs).channelTimeRanges c = some rs)
    (i j : Nat) (hi : i < rs.length) (hj : j < rs.length) (hij : i ≠ j) :
    ¬((rs.get ⟨i, hi⟩).1 < (rs.get ⟨j, hj⟩).2 ∧
      (rs.get ⟨j, hj⟩).1 < (rs.get ⟨i, hi⟩).2) := by
  have hinv : dedupInv (runProgs progs) :=
    runProgs_foldl_inv progs ⟨[], []⟩ dedupInv_empty
  have hpw := hinv c rs hrs
  rw [List.pairwise_iff_get] at hpw
  rcases Nat.lt_or_ge i j with hlt | hge
  · exact hpw ⟨i, hi⟩ ⟨j, hj⟩ hlt
  · have hlt : j < i := by omega
    have := hpw ⟨j, hj⟩ ⟨i, hi⟩ hlt
    intro hcon
    exact this ⟨hcon.2, hcon.1⟩

/-- C1 witness: two non-overlapping submissions for the same channel
are both stored, and the stored pair passes the non-overlap test. -/
theorem c1_no_stored_overlap_witness :
    alistLookup
      (runProgs
        [⟨some "ch1", some "20250101080000 +0800", some "20250101090000 +0800", some "a"⟩,
         ⟨some "ch1", some "20250101090000 +0800", some "20250101100000 +0800", some "b"⟩]).channelTimeRanges
      "ch1"
      = some [(1735718400, 1735722000), (1735722000, 1735725600)] ∧
    ¬(((1735718400 : Int), (1735722000 : Int)).1 < ((1735722000 : Int), (1735725600 : Int)).2 ∧
      ((1735722000 : Int), (1735725600 : Int)).1 < ((1735718400 : Int), (1735722000 : Int)).2) := by
  refine ⟨by decide, ?_⟩
  exact c1_no_stored_overlap
    [⟨some "ch1", some "20250101080000 +0800", some "20250101090000 +0800", some "a"⟩,
     ⟨some "ch1", some "20250101090000 +0800", some "20250101100000 +0800", some "b"⟩]
    "ch1" [(1735718400, 1735722000), (1735722000, 1735725600)]
    (by decide) 0 1 (by decide) (by decide) (by decide)

/-! ## Candidate-list and sorting lemmas for the fuzzy matcher -/

theorem mem_buildCandidates {localCleanName : String} {extNames : List String}
    {cleanExtName : Bool} {e : Cand}
    (h : e ∈ buildCandidates localCleanName extNames cleanExtName) :
    e.original ∈ extNames ∧ e.clean = extClean cleanExtName e.original ∧
    e.len = e.clean.length ∧
    (localIs4k localCleanName = false → strContains e.clean "4K" = false) := by
  unfold buildCandidates at h
  rw [List.mem_filterMap] at h
  obtain ⟨n, hn, hfn⟩ := h
  by_cases hfilt : (!localIs4k localCleanName
      && strContains (extClean cleanExtName n) "4K") = true
  · simp only [hfilt, if_true] at hfn
    cases hfn
  · rw [Bool.not_eq_true] at hfilt
    simp only [hfilt, Bool.false_eq_true, if_false, Option.some.injEq] at hfn
    subst hfn
    refine ⟨hn, rfl, rfl, ?_⟩
    intro h4
    rw [Bool.and_eq_false_iff] at hfilt
    rcases hfilt with h1 | h2
    · rw [h4] at h1; simp at h1
    · exact h2

theorem mem_insertByLen {x y : Cand} : ∀ {s : List Cand},
    y ∈ insertByLen x s ↔ y = x ∨ y ∈ s := by
  intro s
  induction s with
  | nil => simp [insertByLen]
  | cons z zs ih =>
      by_cases h : x.len ≤ z.len
      · simp [insertByLen, h]
      · simp only [insertByLen, h, if_false, List.mem_cons, ih]
        tauto

theorem mem_sortByLen {y : Cand} : ∀ {s : List Cand}, y ∈ sortByLen s ↔ y ∈ s := by
  intro s
  induction s with
  | nil => simp [sortByLen]
  | cons z zs ih => simp [sortByLen, mem_insertByLen, ih]

theorem insertByLen_ne_nil (x : Cand) (s : List Cand) : insertByLen x s ≠ [] := by
  cases s with
  | nil => simp [insertByLen]
  | cons z zs =>
      by_cases h : x.len ≤ z.len <;> simp [insertByLen, h]

theorem sortByLen_ne_nil {s : List Cand} (h : s ≠ []) : sortByLen s ≠ [] := by
  cases s with
  | nil => exact absurd rfl h
  | cons z zs => exact insertByLen_ne_nil z (sortByLen zs)

theorem insertByLen_headI_cases (x : Cand) (s : List Cand) :
    ((insertByLen x s).headI = x ∧ (s = [] ∨ x.len ≤ s.headI.len)) ∨
    (s ≠ [] ∧ (insertByLen x s).headI = s.headI ∧ s.headI.len ≤ x.len) := by
  cases s with
  | nil => left; simp [insertByLen]
  | cons z zs =>
      by_cases h : x.len ≤ z.len
      · left
        simp [insertByLen, h]
      · right
        refine ⟨by simp, ?_, by simp; omega⟩
        simp [insertByLen, h]

/-- The head of the sorted candidate list is a member with minimal
normalised length (Python `m.sort(key=len); m[0]`). -/
theorem sortByLen_headI_min : ∀ (s : List Cand), s ≠ [] →
    (sortByLen s).headI ∈ s ∧ ∀ y ∈ s, (sortByLen s).headI.len ≤ y.len := by
  intro s
  induction s with
  | nil => intro h; exact absurd rfl h
  | cons x xs ih =>
      intro _
      have hun : sortByLen (x :: xs) = insertByLen x (sortByLen xs) := rfl
      rw [hun]
      by_cases hxs : xs = []
      · subst hxs
        simp [sortByLen, insertByLen]
      · obtain ⟨hmem, hmin⟩ := ih hxs
        rcases insertByLen_headI_cases x (sortByLen xs) with ⟨he, hc⟩ | ⟨hne, he, hle⟩
        · rw [he]
          refine ⟨by simp, ?_⟩
          intro y hy
          rcases List.mem_cons.mp hy with rfl | hy2
          · exact Nat.le_refl _
          · rcases hc with hnil | hle2
            · exact absurd hnil (sortByLen_ne_nil hxs)
            · exact le_trans hle2 (hmin y hy2)
        · rw [he]
          refine ⟨List.mem_cons_of_mem _ hmem, ?_⟩
          intro y hy
          rcases List.mem_cons.mp hy with rfl | hy2
          · exact hle
          · exact hmin y hy2

theorem head_filter_spec (p : Cand → Bool) (cands : List Cand)
    (hne : (cands.filter p).isEmpty = false) :
    (sortByLen (cands.filter p)).headI ∈ cands ∧
    p (sortByLen (cands.filter p)).headI = true ∧
    ∀ e' ∈ cands, p e' = true → (sortByLen (cands.filter p)).headI.len ≤ e'.len := by
  have hne' : cands.filter p ≠ [] := by
    intro hc; rw [hc] at hne; simp at hne
  obtain ⟨hmem, hmin⟩ := sortByLen_headI_min _ hne'
  rw [List.mem_filter] at hmem
  refine ⟨hmem.1, hmem.2, ?_⟩
  intro e' he' hpe'
  exact hmin e' (List.mem_filter.mpr ⟨he', hpe'⟩)

theorem rule2Exact_spec {lc : String} {cands : List Cand} {r : String}
    (h : rule2Exact lc cands = some r) :
    ∃ e ∈ cands, e.original = r ∧ (lc == e.clean) = true := by
  obtain ⟨e, he, hfe⟩ := List.exists_of_findSome?_eq_some h
  by_cases hc : (lc == e.clean) = true
  · refine ⟨e, he, ?_, hc⟩
    simp only [hc, if_true, Option.some.injEq] at hfe
    exact hfe
  · rw [Bool.not_eq_true] at hc
    simp [hc] at hfe

theorem rule3Region_spec {rk : String} {cands : List Cand} {r : String}
    (h : rule3Region rk cands = some r) :
    ∃ e ∈ cands, e.original = r ∧
      (e.tag == some "4" && strContains e.clean rk) = true ∧
      ∀ e' ∈ cands, (e'.tag == some "4" && strContains e'.clean rk) = true →
        e.len ≤ e'.len := by
  unfold rule3Region at h
  by_cases hne : (cands.filter fun e => e.tag == some "4" && strContains e.clean rk).isEmpty
  · simp [hne] at h
  · rw [Bool.not_eq_true] at hne
    simp only [hne, Bool.false_eq_true, if_false, Option.some.injEq] at h
    obtain ⟨hm, hp, hmin⟩ := head_filter_spec _ cands hne
    exact ⟨_, hm, h, hp, hmin⟩

theorem rule4Cctv4k_spec {cands : List Cand} {r : String}
    (h : rule4Cctv4k cands = some r) :
    ∃ e ∈ cands, e.original = r ∧ strContains e.clean "CCTV4K" = true ∧
      ∀ e' ∈ cands, strContains e'.clean "CCTV4K" = true → e.len ≤ e'.len := by
  unfold rule4Cctv4k at h
  by_cases hne : (cands.filter fun e => strContains e.clean "CCTV4K").isEmpty
  · simp [hne] at h
  · rw [Bool.not_eq_true] at hne
    simp only [hne, Bool.false_eq_true, if_false, Option.some.injEq] at h
    obtain ⟨hm, hp, hmin⟩ := head_filter_spec _ cands hne
    exact ⟨_, hm, h, hp, hmin⟩

theorem rule5Tag_spec {t : String} {cands : List Cand} {r : String}
    (h : rule5Tag t cands = some r) :
    ∃ e ∈ cands, e.original = r ∧ (e.tag == some t) = true ∧
      ∀ e' ∈ cands, (e'.tag == some t) = true → e.len ≤ e'.len := by
  unfold rule5Tag at h
  by_cases hne : (cands.filter fun e => e.tag == some t).isEmpty
  · simp [hne] at h
  · rw [Bool.not_eq_true] at hne
    simp only [hne, Bool.false_eq_true, if_false, Option.some.injEq] at h
    obtain ⟨hm, hp, hmin⟩ := head_filter_spec _ cands hne
    exact ⟨_, hm, h, hp, hmin⟩

theorem rule6Contain_spec {lc : String} {cands : List Cand} {r : String}
    (h : rule6Contain lc cands = some r) :
    ∃ e ∈ cands, e.original = r ∧
      (strContains e.clean lc && decide (e.len ≤ lc.length + 10)) = true ∧
      ∀ e' ∈ cands, (strContains e'.clean lc && decide (e'.len ≤ lc.length + 10)) = true →
        e.len ≤ e'.len := by
  unfold rule6Contain at h
  by_cases hne : (cands.filter fun e =>
      strContains e.clean lc && decide (e.len ≤ lc.length + 10)).isEmpty
  · simp [hne] at h
  · rw [Bool.not_eq_true] at hne
    simp only [hne, Bool.false_eq_true, if_false, Option.some.injEq] at h
    obtain ⟨hm, hp, hmin⟩ := head_filter_spec _ cands hne
    exact ⟨_, hm, h, hp, hmin⟩

theorem rule7NoPlus_spec {lc : String} {cands : List Cand} {r : String}
    (h : rule7NoPlus lc cands = some r) :
    ∃ e ∈ cands, e.original = r ∧
      (removeChar '+' lc == removeChar '+' e.clean) = true := by
  obtain ⟨e, he, hfe⟩ := List.exists_of_findSome?_eq_some h
  by_cases hc : (removeChar '+' lc == removeChar '+' e.clean) = true
  · refine ⟨e, he, ?_, hc⟩
    simp only [hc, if_true, Option.some.injEq] at hfe
    exact hfe
  · rw [Bool.not_eq_true] at hc
    simp [hc] at hfe

/-- Any value produced by rules 2-7 is the `original` field of one of
the filtered candidates. -/
theorem fuzzyMatchRest_mem {lc : String} {extNames : List String} {b : Bool}
    {r : String} (h : fuzzyMatchRest lc extNames b = some r) :
    ∃ e ∈ buildCandidates lc extNames b, e.original = r := by
  simp only [fuzzyMatchRest] at h
  split at h
  · obtain ⟨e, he, ho, _⟩ := rule2Exact_spec (by assumption)
    cases h; exact ⟨e, he, ho⟩
  · split at h
    · rename_i heq
      split at heq
      · obtain ⟨e, he, ho, _, _⟩ := rule3Region_spec heq
        cases h; exact ⟨e, he, ho⟩
      · cases heq
    · split at h
      · rename_i heq
        split at heq
        · obtain ⟨e, he, ho, _, _⟩ := rule4Cctv4k_spec heq
          cases h; exact ⟨e, he, ho⟩
        · cases heq
      · split at h
        · rename_i heq
          split at heq
          · obtain ⟨e, he, ho, _, _⟩ := rule5Tag_spec heq
            cases h; exact ⟨e, he, ho⟩
          · cases heq
        · split at h
          · obtain ⟨e, he, ho, _, _⟩ := rule6Contain_spec (by assumption)
            cases h; exact ⟨e, he, ho⟩
          · obtain ⟨e, he, ho, _⟩ := rule7NoPlus_spec h
            exact ⟨e, he, ho⟩

/-! ## C6: no 4K candidate can escape rules 2-7 for a non-4K local name -/

/-- C6.  For every local normalized name that is not 4K-flagged (no
`CCTV4K` substring and not in `KEEP_4K_NAMES`, i.e. `localIs4k` is
false) and every candidate list, rules 2-7 of the cascade
(`fuzzyMatchRest`, everything after the rule-1 CGTN special case) never
return a candidate whose cleaned name contains `4K`: such candidates
are excluded from those rules outright by the candidate filter. -/
theorem c6_no_4k_candidate (lc : String) (extNames : List String) (b : Bool)
    (r : String) (h4 : localIs4k lc = false)
    (h : fuzzyMatchRest lc extNames b = some r) :
    strContains (extClean b r) "4K" = false := by
  obtain ⟨e, he, ho⟩ := fuzzyMatchRest_mem h
  obtain ⟨_, hclean, _, hno4k⟩ := mem_buildCandidates he
  rw [← ho, ← hclean]
  exact hno4k h4

/-- C6 witness: a concrete non-4K local name, with a 4K sibling in the
candidate list, resolves through rules 2-7 to the non-4K candidate. -/
theorem c6_no_4k_candidate_witness :
    localIs4k "CCTV5" = false ∧
    fuzzyMatchRest "CCTV5" ["CCTV54K高清", "CCTV5高清"] true = some "CCTV5高清" ∧
    strContains (extClean true "CCTV5高清") "4K" = false :=
  ⟨by decide, by decide,
   c6_no_4k_candidate "CCTV5" ["CCTV54K高清", "CCTV5高清"] true "CCTV5高清"
     (by decide) (by decide)⟩

/-! ## C7: the tie-break is NOT minimal-length in every rule -/

/-- Counterexample to C7: with local name `A+B` and candidates
`["A+++B", "A++B"]`, rule 7 (the plus-stripped fallback) is the first
rule of the cascade that yields a candidate (rules 2 and 6, the only
other rules not switched off by the local name's flags, yield none, and
the local name has no CGTN/region/4K/CCTV-tag flags), both candidates
satisfy rule 7, yet `fuzzy_match` returns `A+++B` (first in candidate
order) whose cleaned length 5 is **not** minimal: the satisfying
candidate `A++B` has cleaned length 4.  Rule 7 picks the first match in
list order, not the shortest. -/
theorem c7_counterexample :
    fuzzy_match "A+B" ["A+++B", "A++B"] true = some "A+++B" ∧
    strContains "A+B" "CGTN" = false ∧
    strContains "A+B" "CCTV4" = false ∧
    cctvTagSearch "A+B".data = none ∧
    rule2Exact "A+B" (buildCandidates "A+B" ["A+++B", "A++B"] true) = none ∧
    rule6Contain "A+B" (buildCandidates "A+B" ["A+++B", "A++B"] true) = none ∧
    rule7NoPlus "A+B" (buildCandidates "A+B" ["A+++B", "A++B"] true) = some "A+++B" ∧
    removeChar '+' (extClean true "A+++B") = removeChar '+' "A+B" ∧
    removeChar '+' (extClean true "A++B") = removeChar '+' "A+B" ∧
    (extClean true "A++B").length < (extClean true "A+++B").length := by
  decide

/-- C7 amended: within rules 2-6 (exact, regional variant,
high-resolution variant, tag equality, containment) the returned
candidate has minimal cleaned-name length among the candidates
satisfying that rule (for rule 2 all satisfying candidates share the
local name, hence its length); rules 1 and 7 instead return the first
satisfying candidate in candidate order (see the counterexample). -/
theorem c7_amended_minimal_in_rules_2_to_6 (lc : String) (cands : List Cand)
    (hlen : ∀ e ∈ cands, e.len = e.clean.length) :
    (∀ r, rule2Exact lc cands = some r →
      ∃ e ∈ cands, e.original = r ∧ (lc == e.clean) = true ∧
        ∀ e' ∈ cands, (lc == e'.clean) = true → e.clean.length ≤ e'.clean.length) ∧
    (∀ rk r, rule3Region rk cands = some r →
      ∃ e ∈ cands, e.original = r ∧
        (e.tag == some "4" && strContains e.clean rk) = true ∧
        ∀ e' ∈ cands, (e'.tag == some "4" && strContains e'.clean rk) = true →
          e.clean.length ≤ e'.clean.length) ∧
    (∀ r, rule4Cctv4k cands = some r →
      ∃ e ∈ cands, e.original = r ∧ strContains e.clean "CCTV4K" = true ∧
        ∀ e' ∈ cands, strContains e'.clean "CCTV4K" = true →
          e.clean.length ≤ e'.clean.length) ∧
    (∀ t r, rule5Tag t cands = some r →
      ∃ e ∈ cands, e.original = r ∧ (e.tag == some t) = true ∧
        ∀ e' ∈ cands, (e'.tag == some t) = true →
          e.clean.length ≤ e'.clean.length) ∧
    (∀ r, rule6Contain lc cands = some r →
      ∃ e ∈ cands, e.original = r ∧
        (strContains e.clean lc && decide (e.len ≤ lc.length + 10)) = true ∧
        ∀ e' ∈ cands, (strContains e'.clean lc && decide (e'.len ≤ lc.length + 10)) = true →
          e.clean.length ≤ e'.clean.length) := by
  refine ⟨?_, ?_, ?_, ?_, ?_⟩
  · intro r h
    obtain ⟨e, he, ho, hc⟩ := rule2Exact_spec h
    refine ⟨e, he, ho, hc, ?_⟩
    intro e' he' hc'
    rw [beq_iff_eq] at hc hc'
    rw [← hc, ← hc']
  · intro rk r h
    obtain ⟨e, he, ho, hp, hmin⟩ := rule3Region_spec h
    refine ⟨e, he, ho, hp, ?_⟩
    intro e' he' hp'
    rw [← hlen e he, ← hlen e' he']
    exact hmin e' he' hp'
  · intro r h
    obtain ⟨e, he, ho, hp, hmin⟩ := rule4Cctv4k_spec h
    refine ⟨e, he, ho, hp, ?_⟩
    intro e' he' hp'
    rw [← hlen e he, ← hlen e' he']
    exact hmin e' he' hp'
  · intro t r h
    obtain ⟨e, he, ho, hp, hmin⟩ := rule5Tag_spec h
    refine ⟨e, he, ho, hp, ?_⟩
    intro e' he' hp'
    rw [← hlen e he, ← hlen e' he']
    exact hmin e' he' hp'
  · intro r h
    obtain ⟨e, he, ho, hp, hmin⟩ := rule6Contain_spec h
    refine ⟨e, he, ho, hp, ?_⟩
    intro e' he' hp'
    rw [← hlen e he, ← hlen e' he']
    exact hmin e' he' hp'

/-- C7 amended witness: the candidate lists built by `fuzzy_match`
satisfy the length hypothesis, and rule 5 resolves `CCTV5` to the
shortest tag-matching candidate. -/
theorem c7_amended_witness :
    (∀ e ∈ buildCandidates "CCTV5" ["CCTV5高清频道", "CCTV5高清"] true,
        e.len = e.clean.length) ∧
    ((∀ r, rule2Exact "CCTV5" (buildCandidates "CCTV5" ["CCTV5高清频道", "CCTV5高清"] true) = some r →
      ∃ e ∈ buildCandidates "CCTV5" ["CCTV5高清频道", "CCTV5高清"] true, e.original = r ∧
        ("CCTV5" == e.clean) = true ∧
        ∀ e' ∈ buildCandidates "CCTV5" ["CCTV5高清频道", "CCTV5高清"] true,
          ("CCTV5" == e'.clean) = true → e.clean.length ≤ e'.clean.length) ∧
    (∀ rk r, rule3Region rk (buildCandidates "CCTV5" ["CCTV5高清频道", "CCTV5高清"] true) = some r →
      ∃ e ∈ buildCandidates "CCTV5" ["CCTV5高清频道", "CCTV5高清"] true, e.original = r ∧
        (e.tag == some "4" && strContains e.clean rk) = true ∧
        ∀ e' ∈ buildCandidates "CCTV5" ["CCTV5高清频道", "CCTV5高清"] true,
          (e'.tag == some "4" && strContains e'.clean rk) = true →
          e.clean.length ≤ e'.clean.length) ∧
    (∀ r, rule4Cctv4k (buildCandidates "CCTV5" ["CCTV5高清频道", "CCTV5高清"] true) = some r →
      ∃ e ∈ buildCandidates "CCTV5" ["CCTV5高清频道", "CCTV5高清"] true, e.original = r ∧
        strContains e.clean "CCTV4K" = true ∧
        ∀ e' ∈ buildCandidates "CCTV5" ["CCTV5高清频道", "CCTV5高清"] true,
          strContains e'.clean "CCTV4K" = true → e.clean.length ≤ e'.clean.length) ∧
    (∀ t r, rule5Tag t (buildCandidates "CCTV5" ["CCTV5高清频道", "CCTV5高清"] true) = some r →
      ∃ e ∈ buildCandidates "CCTV5" ["CCTV5高清频道", "CCTV5高清"] true, e.original = r ∧
        (e.tag == some t) = true ∧
        ∀ e' ∈ buildCandidates "CCTV5" ["CCTV5高清频道", "CCTV5高清"] true,
          (e'.tag == some t) = true → e.clean.length ≤ e'.clean.length) ∧
    (∀ r, rule6Contain "CCTV5" (buildCandidates "CCTV5" ["CCTV5高清频道", "CCTV5高清"] true) = some r →
      ∃ e ∈ buildCandidates "CCTV5" ["CCTV5高清频道", "CCTV5高清"] true, e.original = r ∧
        (strContains e.clean "CCTV5" && decide (e.len ≤ "CCTV5".length + 10)) = true ∧
        ∀ e' ∈ buildCandidates "CCTV5" ["CCTV5高清频道", "CCTV5高清"] true,
          (strContains e'.clean "CCTV5" && decide (e'.len ≤ "CCTV5".length + 10)) = true →
          e.clean.length ≤ e'.clean.length)) :=
  ⟨by decide,
   c7_amended_minimal_in_rules_2_to_6 "CCTV5"
     (buildCandidates "CCTV5" ["CCTV5高清频道", "CCTV5高清"] true) (by decide)⟩

/-! ## C8: normalizer idempotence -/

/-- Counterexample to C8: `clean_channel_name` is not idempotent.  For
`x = "AB4\tK"` the tab hides the `4K` suffix from the suffix-stripping
regex (the pattern's `\s*` parts sit before the alternates, not inside
them), but the final `re.sub(r"\s+", "")` then glues `4` and `K`
together, so the first pass returns `AB4K` and a second pass strips the
now-visible suffix, returning `AB`. -/
theorem c8_counterexample :
    clean_channel_name (some "AB4\tK") = "AB4K" ∧
    clean_channel_name (some (clean_channel_name (some "AB4\tK"))) = "AB" ∧
    clean_channel_name (some (clean_channel_name (some "AB4\tK")))
      ≠ clean_channel_name (some "AB4\tK") := by
  decide

theorem listIsPref_iff {n h : List Char} :
    listIsPref n h = true ↔ ∃ b, h = n ++ b := by
  induction n generalizing h with
  | nil => simp [listIsPref]
  | cons c cs ih =>
      cases h with
      | nil => simp [listIsPref]
      | cons d ds =>
          simp only [listIsPref, Bool.and_eq_true, beq_iff_eq, ih, List.cons_append,
            List.cons.injEq]
          constructor
          · rintro ⟨rfl, b, rfl⟩; exact ⟨b, rfl, rfl⟩
          · rintro ⟨b, rfl, rfl⟩; exact ⟨rfl, b, rfl⟩

theorem listContainsSub_iff {h n : List Char} :
    listContainsSub h n = true ↔ ∃ a b, h = a ++ n ++ b := by
  induction h with
  | nil =>
      simp only [listContainsSub, listIsPref_iff]
      constructor
      · rintro ⟨b, hb⟩
        exact ⟨[], b, by simpa using hb⟩
      · rintro ⟨a, b, hab⟩
        have := hab.symm
        rw [List.append_eq_nil, List.append_eq_nil] at this
        exact ⟨[], by simp [this.1.2]⟩
  | cons c cs ih =>
      simp only [listContainsSub, Bool.or_eq_true, listIsPref_iff, ih]
      constructor
      · rintro (⟨b, hb⟩ | ⟨a, b, hab⟩)
        · exact ⟨[], b, by simpa using hb⟩
        · exact ⟨c :: a, b, by simp [hab]⟩
      · rintro ⟨a, b, hab⟩
        cases a with
        | nil => exact Or.inl ⟨b, by simpa using hab⟩
        | cons a0 as =>
            right
            refine ⟨as, b, ?_⟩
            simpa using List.tail_eq_of_cons_eq hab

/-- Removing characters that a pattern does not contain preserves the
pattern as a substring. -/
theorem listContainsSub_filter {h n : List Char} (p : Char → Bool)
    (hn : ∀ c ∈ n, p c = true) (hc : listContainsSub h n = true) :
    listContainsSub (h.filter p) n = true := by
  rw [listContainsSub_iff] at hc ⊢
  obtain ⟨a, b, rfl⟩ := hc
  refine ⟨a.filter p, b.filter p, ?_⟩
  rw [List.filter_append, List.filter_append, List.filter_eq_self.mpr hn]

/-- On a whitespace character every DFA transition avoids the accepting
state. -/
theorem sufStep_ws_ne_acc (st : SufState) (c : Char) (h : isPySpace c = true) :
    sufStep st c ≠ SufState.acc := by
  have h4 : ¬c = '4' := by rintro rfl; exact absurd h (by decide)
  have hK : ¬c = 'K' := by rintro rfl; exact absurd h (by decide)
  have hk : ¬c = 'k' := by rintro rfl; exact absurd h (by decide)
  have hS : ¬c = 'S' := by rintro rfl; exact absurd h (by decide)
  have hs : ¬c = 's' := by rintro rfl; exact absurd h (by decide)
  have hH : ¬c = 'H' := by rintro rfl; exact absurd h (by decide)
  have hh : ¬c = 'h' := by rintro rfl; exact absurd h (by decide)
  have hD : ¬c = 'D' := by rintro rfl; exact absurd h (by decide)
  have hd : ¬c = 'd' := by rintro rfl; exact absurd h (by decide)
  have hR : ¬c = 'R' := by rintro rfl; exact absurd h (by decide)
  have hr : ¬c = 'r' := by rintro rfl; exact absurd h (by decide)
  have hc1 : ¬c = '超' := by rintro rfl; exact absurd h (by decide)
  have hc2 : ¬c = '清' := by rintro rfl; exact absurd h (by decide)
  cases st <;>
    simp [sufStep, sufAltStart, h, h4, hK, hk, hS, hs, hH, hh, hD, hd, hR, hr, hc1, hc2]

/-- A string ending in whitespace is never in `X+`. -/
theorem xplus_ws_last (l : List Char) (c : Char) (h : isPySpace c = true) :
    xplus (l ++ [c]) = false := by
  unfold xplus
  rw [List.foldl_append]
  simp only [List.foldl_cons, List.foldl_nil]
  have := sufStep_ws_ne_acc (l.foldl sufStep SufState.expectA) c h
  simpa using this

/-- The accepting state continues exactly like the start state. -/
theorem sufStep_acc_eq_expectA (c : Char) :
    sufStep SufState.acc c = sufStep SufState.expectA c := rfl

theorem xplus_nil : xplus ([] : List Char) = false := by decide

/-- `X+` is closed under concatenation. -/
theorem xplus_append {a b : List Char} (ha : xplus a = true) (hb : xplus b = true) :
    xplus (a ++ b) = true := by
  have hbne : b ≠ [] := by
    rintro rfl; rw [xplus_nil] at hb; cases hb
  unfold xplus at *
  rw [List.foldl_append]
  rw [beq_iff_eq] at ha
  rw [ha]
  cases b with
  | nil => exact absurd rfl hbne
  | cons c cs =>
      simp only [List.foldl_cons] at hb ⊢
      rw [sufStep_acc_eq_expectA]
      exact hb

/-- The three possible shapes of a `stripXPlusSuffix` result. -/
theorem strip_cases : ∀ l : List Char,
    stripXPlusSuffix l = l ∨
    (∃ p, stripXPlusSuffix l = l.take p ∧ xplus (l.drop p) = true) ∨
    (∃ p, stripXPlusSuffix l = l.take p ++ ['\n']) := by
  intro l
  induction l with
  | nil => left; rfl
  | cons c rest ih =>
      by_cases h1 : xplus (c :: rest) = true
      · right; left
        exact ⟨0, by simp [stripXPlusSuffix, h1], by simpa using h1⟩
      · by_cases h2 : xplusDollar (c :: rest) = true
        · right; right
          refine ⟨0, ?_⟩
          simp [stripXPlusSuffix, h1, h2]
        · have hstep : stripXPlusSuffix (c :: rest) = c :: stripXPlusSuffix rest := by
            simp [stripXPlusSuffix, h1, h2]
          rcases ih with he | ⟨p, hp, hx⟩ | ⟨p, hp⟩
          · left; rw [hstep, he]
          · right; left
            exact ⟨p + 1, by rw [hstep, hp]; rfl, by simpa using hx⟩
          · right; right
            exact ⟨p + 1, by rw [hstep, hp]; rfl⟩

/-- No suffix of a `stripXPlusSuffix` result lies in `X+`: the leftmost
match position of the anchored pattern is minimal. -/
theorem xplus_drop_strip : ∀ (l : List Char) (q : Nat),
    xplus (List.drop q (stripXPlusSuffix l)) = false := by
  intro l
  induction l with
  | nil => intro q; simp [stripXPlusSuffix, xplus_nil]
  | cons c rest ih =>
      intro q
      by_cases h1 : xplus (c :: rest) = true
      · simp [stripXPlusSuffix, h1, xplus_nil]
      · by_cases h2 : xplusDollar (c :: rest) = true
        · simp only [stripXPlusSuffix, h1, Bool.false_eq_true, if_false, h2, if_true]
          cases q with
          | zero => decide
          | succ q => simp [xplus_nil]
        · have hstep : stripXPlusSuffix (c :: rest) = c :: stripXPlusSuffix rest := by
            simp [stripXPlusSuffix, h1, h2]
          rw [hstep]
          cases q with
          | succ q => simpa using ih q
          | zero =>
              simp only [List.drop_zero]
              by_contra hcon
              rw [Bool.not_eq_false] at hcon
              rcases strip_cases rest with he | ⟨p, hp, hx⟩ | ⟨p, hp⟩
              · rw [he] at hcon; exact h1 hcon
              · rw [hp] at hcon
                have happ := xplus_append hcon hx
                rw [show (c :: rest.take p) ++ rest.drop p = c :: rest from by
                  simp [List.take_append_drop]] at happ
                exact h1 happ
              · rw [hp] at hcon
                rw [show c :: (rest.take p ++ ['\n']) = (c :: rest.take p) ++ ['\n'] from rfl]
                  at hcon
                rw [xplus_ws_last _ '\n' (by decide)] at hcon
                cases hcon

/-- On whitespace-free input the `$`-before-newline case never fires,
so the result is a plain prefix. -/
theorem strip_take_of_noWs : ∀ l : List Char, (∀ c ∈ l, isPySpace c = false) →
    ∃ p, stripXPlusSuffix l = l.take p := by
  intro l
  induction l with
  | nil => intro _; exact ⟨0, rfl⟩
  | cons c rest ih =>
      intro hws
      by_cases h1 : xplus (c :: rest) = true
      · exact ⟨0, by simp [stripXPlusSuffix, h1]⟩
      · by_cases h2 : xplusDollar (c :: rest) = true
        · exfalso
          unfold xplusDollar at h2
          rw [Bool.or_eq_true] at h2
          rcases h2 with h2 | h2
          · exact h1 h2
          · rw [Bool.and_eq_true, beq_iff_eq] at h2
            have hmem : '\n' ∈ c :: rest := List.mem_of_getLast?_eq_some h2.1
            have := hws '\n' hmem
            simp [isPySpace] at this
        · obtain ⟨p, hp⟩ := ih (fun d hd => hws d (List.mem_cons_of_mem c hd))
          refine ⟨p + 1, ?_⟩
          simp only [stripXPlusSuffix, h1, Bool.false_eq_true, if_false, h2]
          rw [hp]; rfl

/-- A whitespace-free list none of whose suffixes is in `X+` is left
unchanged by the stripper. -/
theorem strip_eq_self_of_no_xplus : ∀ l : List Char,
    (∀ q, xplus (List.drop q l) = false) → (∀ c ∈ l, isPySpace c = false) →
    stripXPlusSuffix l = l := by
  intro l
  induction l with
  | nil => intro _ _; rfl
  | cons c rest ih =>
      intro hq hws
      have h1 : xplus (c :: rest) = false := by simpa using hq 0
      have h2 : xplusDollar (c :: rest) = false := by
        unfold xplusDollar
        rw [h1, Bool.false_or]
        by_cases hl : (c :: rest).getLast? == some '\n'
        · rw [beq_iff_eq] at hl
          have hmem : '\n' ∈ c :: rest := List.mem_of_getLast?_eq_some hl
          have := hws '\n' hmem
          simp [isPySpace] at this
        · rw [Bool.not_eq_true] at hl
          rw [hl, Bool.false_and]
      simp only [stripXPlusSuffix, h1, Bool.false_eq_true, if_false, h2]
      rw [ih (fun q => by simpa using hq (q + 1))
        (fun d hd => hws d (List.mem_cons_of_mem c hd))]

theorem dropWhile_eq_self_of_none {p : Char → Bool} : ∀ {l : List Char},
    (∀ c ∈ l, p c = false) → l.dropWhile p = l := by
  intro l h
  cases l with
  | nil => rfl
  | cons c cs =>
      rw [List.dropWhile_cons, h c (by simp)]
      simp

theorem removeHS_self {t : String} (h1 : ∀ d ∈ t.data, (d == '-') = false)
    (h2 : ∀ d ∈ t.data, (d == ' ') = false) :
    removeChar ' ' (removeChar '-' t) = t := by
  show (⟨(t.data.filter fun d => !(d == '-')).filter fun d => !(d == ' ')⟩ : String) = t
  rw [List.filter_eq_self.mpr (fun a ha => by
      rw [h2 a (List.mem_of_mem_filter ha)]; rfl),
    List.filter_eq_self.mpr (fun a ha => by rw [h1 a ha]; rfl)]

theorem mem_removeHS_data {s : String} {d : Char}
    (hd : d ∈ (removeChar ' ' (removeChar '-' s)).data) :
    d ∈ s.data ∧ (d == '-') = false ∧ (d == ' ') = false := by
  have hd' : d ∈ (s.data.filter fun d => !(d == '-')).filter fun d => !(d == ' ') := hd
  rw [List.mem_filter] at hd'
  obtain ⟨hd2, hsp⟩ := hd'
  rw [List.mem_filter] at hd2
  obtain ⟨hd3, hdash⟩ := hd2
  exact ⟨hd3, by simpa using hdash, by simpa using hsp⟩

theorem strContains_removeHS {s needle : String}
    (hn : ∀ c ∈ needle.data, (c == '-') = false ∧ (c == ' ') = false)
    (h : strContains s needle = true) :
    strContains (removeChar ' ' (removeChar '-' s)) needle = true := by
  unfold strContains at h ⊢
  have s1 := listContainsSub_filter (fun d => !(d == '-'))
    (fun c hc => by simp [(hn c hc).1]) h
  have s2 := listContainsSub_filter (fun d => !(d == ' '))
    (fun c hc => by simp [(hn c hc).2]) s1
  exact s2

theorem cleanCore_branch1 {s : String}
    (h : (strContains s "4K"
      && (strContains s "CCTV4K" || strContains s "4K超高清" || strContains s "爱上4K")) = true) :
    cleanCore s = removeChar ' ' (removeChar '-' s) := by
  unfold cleanCore
  simp only [h, if_true]

theorem cleanCore_keep {s : String}
    (h1 : (strContains s "4K"
      && (strContains s "CCTV4K" || strContains s "4K超高清" || strContains s "爱上4K")) = false)
    (h2 : s ∈ KEEP_4K_NAMES) : cleanCore s = s := by
  unfold cleanCore
  simp only [h1, Bool.false_eq_true, if_false, h2, if_true]

theorem cleanCore_branch3 {s : String}
    (h1 : (strContains s "4K"
      && (strContains s "CCTV4K" || strContains s "4K超高清" || strContains s "爱上4K")) = false)
    (h2 : s ∉ KEEP_4K_NAMES) :
    cleanCore s =
      removeAllWs (pyStrip ⟨stripXPlusSuffix (removeChar ' ' (removeChar '-' s)).data⟩) := by
  unfold cleanCore
  simp only [h1, Bool.false_eq_true, if_false, h2]

theorem pyStrip_eq_self {l : List Char} (h : ∀ c ∈ l, isPySpace c = false) :
    pyStrip ⟨l⟩ = ⟨l⟩ := by
  show (⟨((l.dropWhile isPySpace).reverse.dropWhile isPySpace).reverse⟩ : String) = ⟨l⟩
  rw [dropWhile_eq_self_of_none h,
    dropWhile_eq_self_of_none (fun c hc => h c (List.mem_reverse.mp hc)),
    List.reverse_reverse]

theorem removeAllWs_eq_self {l : List Char} (h : ∀ c ∈ l, isPySpace c = false) :
    removeAllWs ⟨l⟩ = ⟨l⟩ := by
  show (⟨l.filter fun c => !isPySpace c⟩ : String) = ⟨l⟩
  rw [List.filter_eq_self.mpr (fun a ha => by simp [h a ha])]

/-- `cleanCore` is idempotent on strings whose only whitespace is the
plain space character. -/
theorem cleanCore_idem (s : String)
    (hws : ∀ c ∈ s.data, isPySpace c = true → c = ' ') :
    cleanCore (cleanCore s) = cleanCore s := by
  by_cases hb1 : (strContains s "4K"
      && (strContains s "CCTV4K" || strContains s "4K超高清" || strContains s "爱上4K")) = true
  · have hcs : cleanCore s = removeChar ' ' (removeChar '-' s) := cleanCore_branch1 hb1
    rw [hcs]
    rw [Bool.and_eq_true] at hb1
    obtain ⟨h4k, hkeys⟩ := hb1
    have hy4k : strContains (removeChar ' ' (removeChar '-' s)) "4K" = true :=
      strContains_removeHS (by decide) h4k
    have hykeys : (strContains (removeChar ' ' (removeChar '-' s)) "CCTV4K"
        || strContains (removeChar ' ' (removeChar '-' s)) "4K超高清"
        || strContains (removeChar ' ' (removeChar '-' s)) "爱上4K") = true := by
      rw [Bool.or_eq_true, Bool.or_eq_true] at hkeys ⊢
      rcases hkeys with (hk | hk) | hk
      · exact Or.inl (Or.inl (strContains_removeHS (by decide) hk))
      · exact Or.inl (Or.inr (strContains_removeHS (by decide) hk))
      · exact Or.inr (strContains_removeHS (by decide) hk)
    rw [cleanCore_branch1 (by rw [Bool.and_eq_true]; exact ⟨hy4k, hykeys⟩)]
    exact removeHS_self (fun d hd => (mem_removeHS_data hd).2.1)
      (fun d hd => (mem_removeHS_data hd).2.2)
  · rw [Bool.not_eq_true] at hb1
    by_cases hkeep : s ∈ KEEP_4K_NAMES
    · rw [cleanCore_keep hb1 hkeep]
      exact cleanCore_keep hb1 hkeep
    · have hx'ws : ∀ c ∈ (removeChar ' ' (removeChar '-' s)).data, isPySpace c = false := by
        intro c hc
        obtain ⟨hcs, _, hcsp⟩ := mem_removeHS_data hc
        by_contra hcon
        rw [Bool.not_eq_false] at hcon
        have := hws c hcs hcon
        subst this
        simp at hcsp
      have hx'dash : ∀ c ∈ (removeChar ' ' (removeChar '-' s)).data, (c == '-') = false :=
        fun c hc => (mem_removeHS_data hc).2.1
      obtain ⟨p, hp⟩ := strip_take_of_noWs _ hx'ws
      have hzsub : ∀ c ∈ stripXPlusSuffix (removeChar ' ' (removeChar '-' s)).data,
          c ∈ (removeChar ' ' (removeChar '-' s)).data := by
        intro c hc
        rw [hp] at hc
        exact List.take_subset _ _ hc
      have hzws : ∀ c ∈ stripXPlusSuffix (removeChar ' ' (removeChar '-' s)).data,
          isPySpace c = false := fun c hc => hx'ws c (hzsub c hc)
      have hzdash : ∀ c ∈ stripXPlusSuffix (removeChar ' ' (removeChar '-' s)).data,
          (c == '-') = false := fun c hc => hx'dash c (hzsub c hc)
      have hzsp : ∀ c ∈ stripXPlusSuffix (removeChar ' ' (removeChar '-' s)).data,
          (c == ' ') = false := by
        intro c hc
        by_contra hcon
        rw [Bool.not_eq_false, beq_iff_eq] at hcon
        subst hcon
        have := hzws ' ' hc
        simp [isPySpace] at this
      have hcs : cleanCore s
          = ⟨stripXPlusSuffix (removeChar ' ' (removeChar '-' s)).data⟩ := by
        rw [cleanCore_branch3 hb1 hkeep, pyStrip_eq_self hzws, removeAllWs_eq_self hzws]
      rw [hcs]
      have hznoxp : ∀ q,
          xplus (List.drop q (stripXPlusSuffix (removeChar ' ' (removeChar '-' s)).data))
            = false := xplus_drop_strip _
      by_cases hz1 : (strContains ⟨stripXPlusSuffix (removeChar ' ' (removeChar '-' s)).data⟩ "4K"
          && (strContains ⟨stripXPlusSuffix (removeChar ' ' (removeChar '-' s)).data⟩ "CCTV4K"
            || strContains ⟨stripXPlusSuffix (removeChar ' ' (removeChar '-' s)).data⟩ "4K超高清"
            || strContains ⟨stripXPlusSuffix (removeChar ' ' (removeChar '-' s)).data⟩ "爱上4K")) = true
      · rw [cleanCore_branch1 hz1]
        exact removeHS_self (fun d hd => hzdash d hd) (fun d hd => hzsp d hd)
      · rw [Bool.not_eq_true] at hz1
        by_cases hz2 : (⟨stripXPlusSuffix (removeChar ' ' (removeChar '-' s)).data⟩ : String)
            ∈ KEEP_4K_NAMES
        · exact cleanCore_keep hz1 hz2
        · rw [cleanCore_branch3 hz1 hz2,
            removeHS_self (fun d hd => hzdash d hd) (fun d hd => hzsp d hd),
            strip_eq_self_of_no_xplus _ hznoxp hzws,
            pyStrip_eq_self hzws, removeAllWs_eq_self hzws]

/-- C8 amended: the normalizer is idempotent on every string whose
whitespace characters are limited to the plain space `' '` (the
counterexample shows idempotence fails when other whitespace, e.g. a
tab, separates the letters of a strippable suffix). -/
theorem c8_amended_idempotent_space_only (s : String)
    (hws : ∀ c ∈ s.data, isPySpace c = true → c = ' ') :
    clean_channel_name (some (clean_channel_name (some s))) = clean_channel_name (some s) := by
  by_cases hs0 : s = ""
  · subst hs0; rfl
  · have h1 : clean_channel_name (some s) = cleanCore s := by
      simp [clean_channel_name, hs0]
    rw [h1]
    by_cases hy : cleanCore s = ""
    · rw [hy]; rfl
    · have h2 : clean_channel_name (some (cleanCore s)) = cleanCore (cleanCore s) := by
        simp [clean_channel_name, hy]
      rw [h2]
      exact cleanCore_idem s hws

/-- C8 amended witness: a concrete space-only name is a fixed point
after one pass. -/
theorem c8_amended_witness :
    (∀ c ∈ ("CCTV-5 高清" : String).data, isPySpace c = true → c = ' ') ∧
    clean_channel_name (some (clean_channel_name (some "CCTV-5 高清")))
      = clean_channel_name (some "CCTV-5 高清") :=
  ⟨by decide, c8_amended_idempotent_space_only "CCTV-5 高清" (by decide)⟩

/-! ## C4: the external identity allocator across sources -/

theorem alistSet_of_lookup_none {α : Type} {l : List (String × α)} {k : String} (v : α)
    (h : alistLookup l k = none) : alistSet l k v = l ++ [(k, v)] := by
  induction l with
  | nil => rfl
  | cons kv rest ih =>
      obtain ⟨k0, w⟩ := kv
      by_cases hk : k0 = k
      · subst hk; simp [alistLookup] at h
      · simp only [alistLookup, show (k0 == k) = false from by simp [hk],
          Bool.false_eq_true, if_false] at h
        simp [alistSet, show (k0 == k) = false from by simp [hk], ih h]

theorem alistSet_of_lookup_some {α : Type} {l : List (String × α)} {k : String} {v : α}
    (h : alistLookup l k = some v) : alistSet l k v = l := by
  induction l with
  | nil => simp [alistLookup] at h
  | cons kv rest ih =>
      obtain ⟨k0, w⟩ := kv
      by_cases hk : k0 = k
      · subst hk
        simp only [alistLookup, beq_self_eq_true, if_true, Option.some.injEq] at h
        simp [alistSet, h]
      · simp only [alistLookup, show (k0 == k) = false from by simp [hk],
          Bool.false_eq_true, if_false] at h
        simp [alistSet, show (k0 == k) = false from by simp [hk], ih h]

theorem lookup_mem_values {α : Type} {l : List (String × α)} {k : String} {v : α}
    (h : alistLookup l k = some v) : v ∈ l.map (·.2) := by
  induction l with
  | nil => simp [alistLookup] at h
  | cons kv rest ih =>
      obtain ⟨k0, w⟩ := kv
      by_cases hk : k0 = k
      · subst hk
        simp only [alistLookup, beq_self_eq_true, if_true, Option.some.injEq] at h
        simp [h]
      · simp only [alistLookup, show (k0 == k) = false from by simp [hk],
          Bool.false_eq_true, if_false] at h
        simp [ih h]

theorem strStartsWith_append (pre rest : String) :
    strStartsWith (pre ++ rest) pre = true := by
  unfold strStartsWith
  rw [string_append_data]
  induction pre.data with
  | nil => rfl
  | cons c cs ih => simpa [listIsPref] using ih

/-- The id minted by the allocator starts with `ext_` and avoids the
supplied in-use set. -/
theorem generate_id_shape (existing : List String) :
    strStartsWith (generate_unique_ext_channel_id existing) "ext_" = true ∧
    generate_unique_ext_channel_id existing ∉ existing := by
  obtain ⟨n, _, heq, hfree, _⟩ := generate_unique_ext_channel_id_least existing "ext_"
  constructor
  · rw [heq]; exact strStartsWith_append _ _
  · rw [heq]; exact hfree

/-- One allocation step preserves the allocator invariants.  `nm` is the
(unique, by hypothesis) stripped resolved name of each native id and
`locals` the fixed set of matched local numbers. -/
theorem processExtChannel_inv (nm : String → String) (locals : List String)
    (st : Step4State) (existing : List String) (entry : String × ExtChannelInfo)
    (hmatched : st.matchedLocalNums = locals)
    (hnm : nm entry.1 = pyStrip entry.2.mainName)
    (hA : ∀ n id, alistLookup st.extNameToFinalId n = some id →
            id ∈ st.extIdMapping.map (·.2))
    (hB : ∀ n n' id, alistLookup st.extNameToFinalId n = some id →
            alistLookup st.extNameToFinalId n' = some id → n = n')
    (hC : ∀ raw id, alistLookup st.extIdMapping raw = some id →
            alistLookup st.extNameToFinalId (nm raw) = some id)
    (hD : ∀ n id, alistLookup st.extNameToFinalId n = some id →
            id ∉ locals ∧ strStartsWith id "ext_" = true)
    (hE : ∀ id, id ∈ st.extIdMapping.map (·.2) → id ∈ existing)
    (hF : ∀ id, id ∈ locals → id ∈ existing) :
    (processExtChannel (st, existing) entry).1.matchedLocalNums = locals ∧
    (∀ n id, alistLookup (processExtChannel (st, existing) entry).1.extNameToFinalId n = some id →
        id ∈ (processExtChannel (st, existing) entry).1.extIdMapping.map (·.2)) ∧
    (∀ n n' id, alistLookup (processExtChannel (st, existing) entry).1.extNameToFinalId n = some id →
        alistLookup (processExtChannel (st, existing) entry).1.extNameToFinalId n' = some id → n = n') ∧
    (∀ raw id, alistLookup (processExtChannel (st, existing) entry).1.extIdMapping raw = some id →
        alistLookup (processExtChannel (st, existing) entry).1.extNameToFinalId (nm raw) = some id) ∧
    (∀ n id, alistLookup (processExtChannel (st, existing) entry).1.extNameToFinalId n = some id →
        id ∉ locals ∧ strStartsWith id "ext_" = true) ∧
    (∀ id, id ∈ (processExtChannel (st, existing) entry).1.extIdMapping.map (·.2) →
        id ∈ (processExtChannel (st, existing) entry).2) ∧
    (∀ id, id ∈ locals → id ∈ (processExtChannel (st, existing) entry).2) ∧
    (∀ id, id ∈ existing → id ∈ (processExtChannel (st, existing) entry).2) ∧
    (∀ n id, alistLookup st.extNameToFinalId n = some id →
        alistLookup (processExtChannel (st, existing) entry).1.extNameToFinalId n = some id) := by
  obtain ⟨raw, info⟩ := entry
  simp only at hnm
  cases hlk : alistLookup st.extNameToFinalId (pyStrip info.mainName) with
  | some fid =>
      have hred : processExtChannel (st, existing) (raw, info) =
          ({ st with extIdMapping := alistSet st.extIdMapping raw fid }, existing) := by
        unfold processExtChannel
        simp [hlk]
      rw [hred]
      have hvals : ∀ id, id ∈ (alistSet st.extIdMapping raw fid).map (·.2) →
          id ∈ st.extIdMapping.map (·.2) ∨ id = fid := by
        intro id hid
        cases hraw : alistLookup st.extIdMapping raw with
        | none =>
            rw [alistSet_of_lookup_none fid hraw, List.map_append] at hid
            rcases List.mem_append.mp hid with h | h
            · exact Or.inl h
            · simp at h; exact Or.inr h
        | some v =>
            have hv : v = fid := by
              have := hC raw v hraw
              rw [hnm, hlk] at this
              exact (Option.some.injEq _ _ ▸ this).symm
            subst hv
            rw [alistSet_of_lookup_some hraw] at hid
            exact Or.inl hid
      have hvals2 : ∀ id, id ∈ st.extIdMapping.map (·.2) →
          id ∈ (alistSet st.extIdMapping raw fid).map (·.2) ∨ id = fid := by
        intro id hid
        cases hraw : alistLookup st.extIdMapping raw with
        | none =>
            rw [alistSet_of_lookup_none fid hraw, List.map_append]
            exact Or.inl (List.mem_append.mpr (Or.inl hid))
        | some v =>
            have hv : v = fid := by
              have := hC raw v hraw
              rw [hnm, hlk] at this
              exact (Option.some.injEq _ _ ▸ this).symm
            subst hv
            rw [alistSet_of_lookup_some hraw]
            exact Or.inl hid
      have hfidmem : fid ∈ (alistSet st.extIdMapping raw fid).map (·.2) :=
        lookup_mem_values (alistLookup_set_self _ _ _)
      refine ⟨hmatched, ?_, hB, ?_, hD, ?_, hF, fun id h => h, fun n id h => h⟩
      · intro n id h
        rcases hvals2 id (hA n id h) with h2 | h2
        · exact h2
        · rw [h2]; exact hfidmem
      · intro raw' id h
        by_cases hr : raw' = raw
        · subst hr
          rw [alistLookup_set_self] at h
          cases h
          rw [hnm, hlk]
        · rw [alistLookup_set_ne _ _ _ _ (by exact hr)] at h
          exact hC raw' id h
      · intro id hid
        rcases hvals id hid with h2 | h2
        · exact hE id h2
        · rw [h2]
          exact hE fid (hA _ _ hlk)
  | none =>
      have hraw : alistLookup st.extIdMapping raw = none := by
        cases hr : alistLookup st.extIdMapping raw with
        | none => rfl
        | some v =>
            have := hC raw v hr
            rw [hnm, hlk] at this
            cases this
      have hred : processExtChannel (st, existing) (raw, info) =
          ({ st with
             extIdMapping := alistSet st.extIdMapping raw
               (generate_unique_ext_channel_id existing),
             extNameToFinalId := alistSet st.extNameToFinalId (pyStrip info.mainName)
               (generate_unique_ext_channel_id existing) },
           existing ++ [generate_unique_ext_channel_id existing]) := by
        unfold processExtChannel
        simp [hlk]
      rw [hred]
      obtain ⟨hpre, hnotin⟩ := generate_id_shape existing
      have hmapset := alistSet_of_lookup_none (generate_unique_ext_channel_id existing) hraw
      have htlook : ∀ n', alistLookup (alistSet st.extNameToFinalId (pyStrip info.mainName)
          (generate_unique_ext_channel_id existing)) n' =
          if n' = pyStrip info.mainName then some (generate_unique_ext_channel_id existing)
          else alistLookup st.extNameToFinalId n' := by
        intro n'
        by_cases hn : n' = pyStrip info.mainName
        · subst hn; simp [alistLookup_set_self]
        · simp [hn, alistLookup_set_ne _ _ _ _ hn]
      have hvalsnew : (alistSet st.extIdMapping raw
          (generate_unique_ext_channel_id existing)).map (·.2)
          = st.extIdMapping.map (·.2) ++ [generate_unique_ext_channel_id existing] := by
        rw [hmapset, List.map_append]; rfl
      refine ⟨hmatched, ?_, ?_, ?_, ?_, ?_, ?_, ?_, ?_⟩
      · intro n id h
        rw [htlook] at h
        rw [hvalsnew]
        by_cases hn : n = pyStrip info.mainName
        · rw [if_pos hn] at h
          cases h
          simp
        · rw [if_neg hn] at h
          exact List.mem_append.mpr (Or.inl (hA n id h))
      · intro n n' id h h'
        rw [htlook] at h h'
        by_cases hn : n = pyStrip info.mainName <;> by_cases hn' : n' = pyStrip info.mainName
        · rw [hn, hn']
        · rw [if_pos hn] at h
          rw [if_neg hn'] at h'
          cases h
          exact absurd (hE _ (hA _ _ h')) hnotin
        · rw [if_neg hn] at h
          rw [if_pos hn'] at h'
          cases h'
          exact absurd (hE _ (hA _ _ h)) hnotin
        · rw [if_neg hn] at h
          rw [if_neg hn'] at h'
          exact hB n n' id h h'
      · intro raw' id h
        by_cases hr : raw' = raw
        · subst hr
          rw [alistLookup_set_self] at h
          cases h
          rw [htlook, hnm, if_pos rfl]
        · rw [alistLookup_set_ne _ _ _ _ (by exact hr)] at h
          have hold := hC raw' id h
          rw [htlook]
          by_cases hn : nm raw' = pyStrip info.mainName
          · rw [hn] at hold
            rw [hlk] at hold
            cases hold
          · rw [if_neg hn]
            exact hold
      · intro n id h
        rw [htlook] at h
        by_cases hn : n = pyStrip info.mainName
        · rw [if_pos hn] at h
          cases h
          exact ⟨fun hmem => hnotin (hF _ hmem), hpre⟩
        · rw [if_neg hn] at h
          exact hD n id h
      · intro id hid
        rw [hvalsnew] at hid
        rcases List.mem_append.mp hid with h2 | h2
        · exact List.mem_append.mpr (Or.inl (hE id h2))
        · simp at h2
          rw [h2]
          exact List.mem_append.mpr (Or.inr (by simp))
      · intro id hid
        exact List.mem_append.mpr (Or.inl (hF id hid))
      · intro id hid
        exact List.mem_append.mpr (Or.inl hid)
      · intro n id h
        rw [htlook]
        by_cases hn : n = pyStrip info.mainName
        · rw [hn, hlk] at h
          cases h
        · rw [if_neg hn]
          exact h

/-- The pending-channel loop body never touches the allocator tables or
the matched local numbers. -/
theorem processChannel_keeps_alloc (src : SourceData) (acc : PendAcc) (idx : Nat) :
    (processChannel src acc idx).st.extNameToFinalId = acc.st.extNameToFinalId ∧
    (processChannel src acc idx).st.extIdMapping = acc.st.extIdMapping ∧
    (processChannel src acc idx).st.matchedLocalNums = acc.st.matchedLocalNums := by
  dsimp only [processChannel]
  split_ifs <;> simp

theorem pendingFold_keeps_alloc (src : SourceData) :
    ∀ (idxs : List Nat) (acc : PendAcc),
      (idxs.foldl (processChannel src) acc).st.extNameToFinalId = acc.st.extNameToFinalId ∧
      (idxs.foldl (processChannel src) acc).st.extIdMapping = acc.st.extIdMapping ∧
      (idxs.foldl (processChannel src) acc).st.matchedLocalNums = acc.st.matchedLocalNums := by
  intro idxs
  induction idxs with
  | nil => intro acc; exact ⟨rfl, rfl, rfl⟩
  | cons i rest ih =>
      intro acc
      obtain ⟨e1, e2, e3⟩ := ih (processChannel src acc i)
      obtain ⟨f1, f2, f3⟩ := processChannel_keeps_alloc src acc i
      exact ⟨by rw [List.foldl_cons, e1, f1], by rw [List.foldl_cons, e2, f2],
        by rw [List.foldl_cons, e3, f3]⟩

theorem processPending_keeps_alloc (st : Step4State) (src : SourceData) :
    (processPending st src).extNameToFinalId = st.extNameToFinalId ∧
    (processPending st src).extIdMapping = st.extIdMapping ∧
    (processPending st src).matchedLocalNums = st.matchedLocalNums := by
  obtain ⟨e1, e2, e3⟩ := pendingFold_keeps_alloc src st.pending ⟨st, []⟩
  exact ⟨e1, e2, e3⟩

/-- The allocator invariants survive the whole `full_channel_info` fold
of one source. -/
theorem foldExtChannels_inv (nm : String → String) (locals : List String)
    (entries : List (String × ExtChannelInfo)) :
    ∀ (st : Step4State) (existing : List String),
      (∀ e ∈ entries, nm e.1 = pyStrip e.2.mainName) →
      st.matchedLocalNums = locals →
      (∀ n id, alistLookup st.extNameToFinalId n = some id →
          id ∈ st.extIdMapping.map (·.2)) →
      (∀ n n' id, alistLookup st.extNameToFinalId n = some id →
          alistLookup st.extNameToFinalId n' = some id → n = n') →
      (∀ raw id, alistLookup st.extIdMapping raw = some id →
          alistLookup st.extNameToFinalId (nm raw) = some id) →
      (∀ n id, alistLookup st.extNameToFinalId n = some id →
          id ∉ locals ∧ strStartsWith id "ext_" = true) →
      (∀ id, id ∈ st.extIdMapping.map (·.2) → id ∈ existing) →
      (∀ id, id ∈ locals → id ∈ existing) →
      ((entries.foldl processExtChannel (st, existing)).1.matchedLocalNums = locals ∧
       (∀ n id, alistLookup (entries.foldl processExtChannel (st, existing)).1.extNameToFinalId n = some id →
           id ∈ (entries.foldl processExtChannel (st, existing)).1.extIdMapping.map (·.2)) ∧
       (∀ n n' id, alistLookup (entries.foldl processExtChannel (st, existing)).1.extNameToFinalId n = some id →
           alistLookup (entries.foldl processExtChannel (st, existing)).1.extNameToFinalId n' = some id → n = n') ∧
       (∀ raw id, alistLookup (entries.foldl processExtChannel (st, existing)).1.extIdMapping raw = some id →
           alistLookup (entries.foldl processExtChannel (st, existing)).1.extNameToFinalId (nm raw) = some id) ∧
       (∀ n id, alistLookup (entries.foldl processExtChannel (st, existing)).1.extNameToFinalId n = some id →
           id ∉ locals ∧ strStartsWith id "ext_" = true) ∧
       (∀ id, id ∈ (entries.foldl processExtChannel (st, existing)).1.extIdMapping.map (·.2) →
           id ∈ (entries.foldl processExtChannel (st, existing)).2) ∧
       (∀ id, id ∈ locals → id ∈ (entries.foldl processExtChannel (st, existing)).2) ∧
       (∀ n id, alistLookup st.extNameToFinalId n = some id →
           alistLookup (entries.foldl processExtChannel (st, existing)).1.extNameToFinalId n = some id)) := by
  induction entries with
  | nil =>
      intro st existing _ h0 hA hB hC hD hE hF
      exact ⟨h0, hA, hB, hC, hD, hE, hF, fun n id h => h⟩
  | cons e rest ih =>
      intro st existing hnm h0 hA hB hC hD hE hF
      obtain ⟨s0, sA, sB, sC, sD, sE, sF, sMon, sPers⟩ :=
        processExtChannel_inv nm locals st existing e h0 (hnm e (by simp)) hA hB hC hD hE hF
      have hfold : (e :: rest).foldl processExtChannel (st, existing)
          = rest.foldl processExtChannel (processExtChannel (st, existing) e) := by
        rw [List.foldl_cons]
      rw [hfold]
      have hpair : processExtChannel (st, existing) e =
          ((processExtChannel (st, existing) e).1, (processExtChannel (st, existing) e).2) := rfl
      rw [hpair]
      obtain ⟨r0, rA, rB, rC, rD, rE, rF, rPers⟩ :=
        ih (processExtChannel (st, existing) e).1 (processExtChannel (st, existing) e).2
          (fun e' he' => hnm e' (by simp [he'])) s0 sA sB sC sD sE sF
      exact ⟨r0, rA, rB, rC, rD, rE, rF, fun n id h => rPers n id (sPers n id h)⟩

theorem processKeepOther_inv (nm : String → String) (locals : List String)
    (st : Step4State) (src : SourceData)
    (hnm : ∀ e ∈ src.fullChannelInfo, nm e.1 = pyStrip e.2.mainName)
    (h0 : st.matchedLocalNums = locals)
    (hA : ∀ n id, alistLookup st.extNameToFinalId n = some id →
        id ∈ st.extIdMapping.map (·.2))
    (hB : ∀ n n' id, alistLookup st.extNameToFinalId n = some id →
        alistLookup st.extNameToFinalId n' = some id → n = n')
    (hC : ∀ raw id, alistLookup st.extIdMapping raw = some id →
        alistLookup st.extNameToFinalId (nm raw) = some id)
    (hD : ∀ n id, alistLookup st.extNameToFinalId n = some id →
        id ∉ locals ∧ strStartsWith id "ext_" = true) :
    ((processKeepOther st src).matchedLocalNums = locals ∧
     (∀ n id, alistLookup (processKeepOther st src).extNameToFinalId n = some id →
         id ∈ (processKeepOther st src).extIdMapping.map (·.2)) ∧
     (∀ n n' id, alistLookup (processKeepOther st src).extNameToFinalId n = some id →
         alistLookup (processKeepOther st src).extNameToFinalId n' = some id → n = n') ∧
     (∀ raw id, alistLookup (processKeepOther st src).extIdMapping raw = some id →
         alistLookup (processKeepOther st src).extNameToFinalId (nm raw) = some id) ∧
     (∀ n id, alistLookup (processKeepOther st src).extNameToFinalId n = some id →
         id ∉ locals ∧ strStartsWith id "ext_" = true) ∧
     (∀ n id, alistLookup st.extNameToFinalId n = some id →
         alistLookup (processKeepOther st src).extNameToFinalId n = some id)) := by
  have hE : ∀ id, id ∈ st.extIdMapping.map (·.2) → id ∈ computeExistingIds st := by
    intro id hid
    unfold computeExistingIds
    exact List.mem_append.mpr (Or.inr hid)
  have hF : ∀ id, id ∈ locals → id ∈ computeExistingIds st := by
    intro id hid
    unfold computeExistingIds
    rw [h0]
    exact List.mem_append.mpr (Or.inl (List.mem_append.mpr (Or.inl hid)))
  obtain ⟨r0, rA, rB, rC, rD, _, _, rPers⟩ :=
    foldExtChannels_inv nm locals src.fullChannelInfo st (computeExistingIds st)
      hnm h0 hA hB hC hD hE hF
  have heq : ∀ (q : Step4State),
      q = (src.fullChannelInfo.foldl processExtChannel (st, computeExistingIds st)).1 →
      (processKeepOther st src).extNameToFinalId = q.extNameToFinalId ∧
      (processKeepOther st src).extIdMapping = q.extIdMapping ∧
      (processKeepOther st src).matchedLocalNums = q.matchedLocalNums := by
    intro q hq
    subst hq
    unfold processKeepOther
    exact ⟨rfl, rfl, rfl⟩
  obtain ⟨g1, g2, g3⟩ := heq _ rfl
  refine ⟨by rw [g3]; exact r0, ?_, ?_, ?_, ?_, ?_⟩
  · intro n id h; rw [g1] at h; rw [g2]; exact rA n id h
  · intro n n' id h h'; rw [g1] at h h'; exact rB n n' id h h'
  · intro raw id h; rw [g2] at h; rw [g1]; exact rC raw id h
  · intro n id h; rw [g1] at h; exact rD n id h
  · intro n id h; rw [g1]; exact rPers n id h

theorem processSource_inv (nm : String → String) (locals : List String)
    (st : Step4State) (src0 : SourceData)
    (hnm : ∀ e ∈ (renameSource src0).fullChannelInfo, nm e.1 = pyStrip e.2.mainName)
    (h0 : st.matchedLocalNums = locals)
    (hA : ∀ n id, alistLookup st.extNameToFinalId n = some id →
        id ∈ st.extIdMapping.map (·.2))
    (hB : ∀ n n' id, alistLookup st.extNameToFinalId n = some id →
        alistLookup st.extNameToFinalId n' = some id → n = n')
    (hC : ∀ raw id, alistLookup st.extIdMapping raw = some id →
        alistLookup st.extNameToFinalId (nm raw) = some id)
    (hD : ∀ n id, alistLookup st.extNameToFinalId n = some id →
        id ∉ locals ∧ strStartsWith id "ext_" = true) :
    ((processSource st src0).matchedLocalNums = locals ∧
     (∀ n id, alistLookup (processSource st src0).extNameToFinalId n = some id →
         id ∈ (processSource st src0).extIdMapping.map (·.2)) ∧
     (∀ n n' id, alistLookup (processSource st src0).extNameToFinalId n = some id →
         alistLookup (processSource st src0).extNameToFinalId n' = some id → n = n') ∧
     (∀ raw id, alistLookup (processSource st src0).extIdMapping raw = some id →
         alistLookup (processSource st src0).extNameToFinalId (nm raw) = some id) ∧
     (∀ n id, alistLookup (processSource st src0).extNameToFinalId n = some id →
         id ∉ locals ∧ strStartsWith id "ext_" = true) ∧
     (∀ n id, alistLookup st.extNameToFinalId n = some id →
         alistLookup (processSource st src0).extNameToFinalId n = some id)) := by
  unfold processSource
  by_cases hguard : (src0.epgMap.isEmpty || src0.identifiers.isEmpty) = true
  · simp only [hguard, if_true]
    exact ⟨h0, hA, hB, hC, hD, fun n id h => h⟩
  · simp only [hguard, Bool.false_eq_true, if_false]
    obtain ⟨k0, kA, kB, kC, kD, kPers⟩ :=
      processKeepOther_inv nm locals st (renameSource src0) hnm h0 hA hB hC hD
    obtain ⟨p1, p2, p3⟩ :=
      processPending_keeps_alloc (processKeepOther st (renameSource src0)) (renameSource src0)
    refine ⟨by rw [p3]; exact k0, ?_, ?_, ?_, ?_, ?_⟩
    · intro n id h; rw [p1] at h; rw [p2]; exact kA n id h
    · intro n n' id h h'; rw [p1] at h h'; exact kB n n' id h h'
    · intro raw id h; rw [p2] at h; rw [p1]; exact kC raw id h
    · intro n id h; rw [p1] at h; exact kD n id h
    · intro n id h; rw [p1]; exact kPers n id h

theorem runSources_inv (nm : String → String) (locals : List String) :
    ∀ (sources : List SourceData) (st : Step4State),
    (∀ src ∈ sources, ∀ e ∈ (renameSource src).fullChannelInfo,
        nm e.1 = pyStrip e.2.mainName) →
    st.matchedLocalNums = locals →
    (∀ n id, alistLookup st.extNameToFinalId n = some id →
        id ∈ st.extIdMapping.map (·.2)) →
    (∀ n n' id, alistLookup st.extNameToFinalId n = some id →
        alistLookup st.extNameToFinalId n' = some id → n = n') →
    (∀ raw id, alistLookup st.extIdMapping raw = some id →
        alistLookup st.extNameToFinalId (nm raw) = some id) →
    (∀ n id, alistLookup st.extNameToFinalId n = some id →
        id ∉ locals ∧ strStartsWith id "ext_" = true) →
    ((runSources st sources).matchedLocalNums = locals ∧
     (∀ n id, alistLookup (runSources st sources).extNameToFinalId n = some id →
         id ∈ (runSources st sources).extIdMapping.map (·.2)) ∧
     (∀ n n' id, alistLookup (runSources st sources).extNameToFinalId n = some id →
         alistLookup (runSources st sources).extNameToFinalId n' = some id → n = n') ∧
     (∀ raw id, alistLookup (runSources st sources).extIdMapping raw = some id →
         alistLookup (runSources st sources).extNameToFinalId (nm raw) = some id) ∧
     (∀ n id, alistLookup (runSources st sources).extNameToFinalId n = some id →
         id ∉ locals ∧ strStartsWith id "ext_" = true) ∧
     (∀ n id, alistLookup st.extNameToFinalId n = some id →
         alistLookup (runSources st sources).extNameToFinalId n = some id)) := by
  intro sources
  induction sources with
  | nil =>
      intro st _ h0 hA hB hC hD
      exact ⟨h0, hA, hB, hC, hD, fun n id h => h⟩
  | cons src rest ih =>
      intro st hnm h0 hA hB hC hD
      rw [show runSources st (src :: rest)
        = if st.pending.isEmpty then st else runSources (processSource st src) rest from rfl]
      by_cases hpe : st.pending.isEmpty
      · simp only [hpe, if_true]
        exact ⟨h0, hA, hB, hC, hD, fun n id h => h⟩
      · simp only [hpe, Bool.false_eq_true, if_false]
        obtain ⟨s0, sA, sB, sC, sD, sPers⟩ :=
          processSource_inv nm locals st src (hnm src (by simp)) h0 hA hB hC hD
        obtain ⟨r0, rA, rB, rC, rD, rPers⟩ :=
          ih (processSource st src) (fun s hs => hnm s (by simp [hs])) s0 sA sB sC sD
        exact ⟨r0, rA, rB, rC, rD, fun n id h => rPers n id (sPers n id h)⟩

theorem runSources_of_pending_empty {st : Step4State} (h : st.pending.isEmpty = true)
    (srcs : List SourceData) : runSources st srcs = st := by
  cases srcs with
  | nil => rfl
  | cons s rest =>
      rw [show runSources st (s :: rest)
        = if st.pending.isEmpty then st else runSources (processSource st s) rest from rfl]
      simp [h]

theorem runSources_append (a b : List SourceData) : ∀ st : Step4State,
    runSources st (a ++ b) = runSources (runSources st a) b := by
  induction a with
  | nil => intro st; rfl
  | cons x a' ih =>
      intro st
      rw [List.cons_append,
        show runSources st (x :: (a' ++ b))
          = if st.pending.isEmpty then st else runSources (processSource st x) (a' ++ b)
          from rfl,
        show runSources st (x :: a')
          = if st.pending.isEmpty then st else runSources (processSource st x) a' from rfl]
      by_cases hpe : st.pending.isEmpty
      · simp only [hpe, if_true]
        exact (runSources_of_pending_empty hpe b).symm
      · simp only [hpe, Bool.false_eq_true, if_false]
        exact ih (processSource st x)

theorem ext_ne_tempId {id : String} (h : strStartsWith id "ext_" = true) (j : Nat) :
    id ≠ tempId j := by
  intro he
  rw [he] at h
  have hno : strStartsWith (tempId j) "ext_" = false := rfl
  rw [hno] at h
  cases h

/-- Counterexample to C4: a native channel id that recurs in a later
source under a different resolved name makes `ext_id_mapping` overwrite
its entry, dropping the earlier-minted id from the in-use set, so a
still later mint can collide.  Concretely: source 1 carries native id
`X` named `A` (minted `ext_1`), source 2 carries the same native id `X`
named `B` (minted `ext_2`, overwriting `X ↦ ext_1`), source 3 carries
native id `Y` named `C` — the allocator no longer sees `ext_1` in use
and mints it again: the two distinct resolved names `A` and `C` both
map to `ext_1`. -/
theorem c4_counterexample :
    (let st0 : Step4State :=
       ⟨[⟨"official_skip", "X", "X", "misc", "rtp://x", some "bj1"⟩], [0],
        ⟨[], []⟩, [], [], [], 1, ["bj1"], [], [], []⟩;
     let mkSrc : String → String → SourceData := fun cid name =>
       ⟨false, true, [], [(name, [])], [name], [(cid, name)],
        [(cid, ⟨cid, name, [name]⟩)], []⟩;
     alistLookup (runSources st0
        [mkSrc "X" "A", mkSrc "X" "B", mkSrc "Y" "C"]).extNameToFinalId "A"
        = some "ext_1" ∧
     alistLookup (runSources st0
        [mkSrc "X" "A", mkSrc "X" "B", mkSrc "Y" "C"]).extNameToFinalId "C"
        = some "ext_1") ∧
    ("A" : String) ≠ "C" := by
  refine ⟨⟨?_, ?_⟩, by decide⟩ <;> decide

/-- C4 amended: under the additional assumption that every native
channel id carries one fixed resolved name across the whole run (the
function `nm`; the counterexample shows the claim fails without it),
the resolved-name table built from an empty initial state is a function
and injective: assignments persist across later sources, no two
distinct resolved names share an output id, every native id maps to its
name's id, and every assigned id avoids the local permanent ids, avoids
every temporary `unm_` id, and lives in the reserved `ext_` namespace. -/
theorem c4_amended_allocator (sources : List SourceData) (st0 : Step4State)
    (nm : String → String)
    (hmap0 : st0.extIdMapping = []) (htab0 : st0.extNameToFinalId = [])
    (hnm : ∀ src ∈ sources, ∀ e ∈ (renameSource src).fullChannelInfo,
        nm e.1 = pyStrip e.2.mainName) :
    (∀ n n' id, alistLookup (runSources st0 sources).extNameToFinalId n = some id →
        alistLookup (runSources st0 sources).extNameToFinalId n' = some id → n = n') ∧
    (∀ raw id, alistLookup (runSources st0 sources).extIdMapping raw = some id →
        alistLookup (runSources st0 sources).extNameToFinalId (nm raw) = some id) ∧
    (∀ n id, alistLookup (runSources st0 sources).extNameToFinalId n = some id →
        id ∉ st0.matchedLocalNums ∧ strStartsWith id "ext_" = true ∧
          ∀ j, id ≠ tempId j) ∧
    (∀ a b, sources = a ++ b → ∀ n id,
        alistLookup (runSources st0 a).extNameToFinalId n = some id →
        alistLookup (runSources st0 sources).extNameToFinalId n = some id) := by
  have hA0 : ∀ n id, alistLookup st0.extNameToFinalId n = some id →
      id ∈ st0.extIdMapping.map (·.2) := by
    intro n id h; rw [htab0] at h; cases h
  have hB0 : ∀ n n' id, alistLookup st0.extNameToFinalId n = some id →
      alistLookup st0.extNameToFinalId n' = some id → n = n' := by
    intro n n' id h; rw [htab0] at h; cases h
  have hC0 : ∀ raw id, alistLookup st0.extIdMapping raw = some id →
      alistLookup st0.extNameToFinalId (nm raw) = some id := by
    intro raw id h; rw [hmap0] at h; cases h
  have hD0 : ∀ n id, alistLookup st0.extNameToFinalId n = some id →
      id ∉ st0.matchedLocalNums ∧ strStartsWith id "ext_" = true := by
    intro n id h; rw [htab0] at h; cases h
  obtain ⟨r0, rA, rB, rC, rD, rPers⟩ :=
    runSources_inv nm st0.matchedLocalNums sources st0 hnm rfl hA0 hB0 hC0 hD0
  refine ⟨rB, rC, ?_, ?_⟩
  · intro n id h
    obtain ⟨hm, hpre⟩ := rD n id h
    exact ⟨hm, hpre, ext_ne_tempId hpre⟩
  · intro a b hab n id h
    obtain ⟨a0, aA, aB, aC, aD, _⟩ :=
      runSources_inv nm st0.matchedLocalNums a st0
        (fun s hs => hnm s (by rw [hab]; exact List.mem_append.mpr (Or.inl hs)))
        rfl hA0 hB0 hC0 hD0
    obtain ⟨_, _, _, _, _, bPers⟩ :=
      runSources_inv nm st0.matchedLocalNums b (runSources st0 a)
        (fun s hs => hnm s (by rw [hab]; exact List.mem_append.mpr (Or.inr hs)))
        a0 aA aB aC aD
    rw [hab, runSources_append]
    exact bPers n id h

/-- C4 amended witness: two sources repeating the same native id under
the same resolved name share one output id, disjoint from the local and
temporary namespaces. -/
theorem c4_amended_allocator_witness :
    ((∀ n n' id, alistLookup (runSources
        ⟨[⟨"official_skip", "X", "X", "misc", "rtp://x", some "bj1"⟩], [0],
         ⟨[], []⟩, [], [], [], 1, ["bj1"], [], [], []⟩
        [⟨false, true, [], [("A", [])], ["A"], [("X", "A")], [("X", ⟨"X", "A", ["A"]⟩)], []⟩,
         ⟨false, true, [], [("A", [])], ["A"], [("X", "A")], [("X", ⟨"X", "A", ["A"]⟩)], []⟩]).extNameToFinalId n = some id →
        alistLookup (runSources
        ⟨[⟨"official_skip", "X", "X", "misc", "rtp://x", some "bj1"⟩], [0],
         ⟨[], []⟩, [], [], [], 1, ["bj1"], [], [], []⟩
        [⟨false, true, [], [("A", [])], ["A"], [("X", "A")], [("X", ⟨"X", "A", ["A"]⟩)], []⟩,
         ⟨false, true, [], [("A", [])], ["A"], [("X", "A")], [("X", ⟨"X", "A", ["A"]⟩)], []⟩]).extNameToFinalId n' = some id → n = n')) ∧
    alistLookup (runSources
        ⟨[⟨"official_skip", "X", "X", "misc", "rtp://x", some "bj1"⟩], [0],
         ⟨[], []⟩, [], [], [], 1, ["bj1"], [], [], []⟩
        [⟨false, true, [], [("A", [])], ["A"], [("X", "A")], [("X", ⟨"X", "A", ["A"]⟩)], []⟩,
         ⟨false, true, [], [("A", [])], ["A"], [("X", "A")], [("X", ⟨"X", "A", ["A"]⟩)], []⟩]).extNameToFinalId "A" = some "ext_1" :=
  ⟨(c4_amended_allocator
      [⟨false, true, [], [("A", [])], ["A"], [("X", "A")], [("X", ⟨"X", "A", ["A"]⟩)], []⟩,
       ⟨false, true, [], [("A", [])], ["A"], [("X", "A")], [("X", ⟨"X", "A", ["A"]⟩)], []⟩]
      ⟨[⟨"official_skip", "X", "X", "misc", "rtp://x", some "bj1"⟩], [0],
       ⟨[], []⟩, [], [], [], 1, ["bj1"], [], [], []⟩
      (fun _ => "A") rfl rfl (by decide)).1,
   by decide⟩

/-! ## C3: single-contribution channels never accept from later sources -/

/-- `add_program_if_no_time_overlap` appends exactly the accepted
program to `programme_list`. -/
theorem add_program_progs (st : DedupState) (p : Prog) :
    (add_program_if_no_time_overlap st p).2.programmeList
      = st.programmeList
        ++ (if (add_program_if_no_time_overlap st p).1 = true then [p] else []) := by
  by_cases hguard :
      (!truthyStr p.channel || !truthyStr p.start || !truthyStr p.stop) = true
  · simp [add_program_if_no_time_overlap, hguard]
  · rw [Bool.not_eq_true] at hguard
    cases hs : parse_time_str_to_timestamp (p.start.getD "") with
    | none => simp [add_program_if_no_time_overlap, hguard, hs]
    | some ns =>
        cases he : parse_time_str_to_timestamp (p.stop.getD "") with
        | none => simp [add_program_if_no_time_overlap, hguard, hs, he]
        | some ne =>
            by_cases hlk : (alistLookup st.channelTimeRanges (p.channel.getD "")).isNone
            · rw [Option.isNone_iff_eq_none] at hlk
              have hlk2 : alistLookup
                  (alistSet st.channelTimeRanges (p.channel.getD "") [])
                  (p.channel.getD "") = some [] := alistLookup_set_self _ _ _
              simp [add_program_if_no_time_overlap, hguard, hs, he, hlk, hlk2]
            · rw [Bool.not_eq_true, Option.isNone_eq_false_iff,
                Option.isSome_iff_exists] at hlk
              obtain ⟨rs, hrs⟩ := hlk
              by_cases hov : rs.any (fun r => is_time_overlap ns ne r.1 r.2) = true
              · simp [add_program_if_no_time_overlap, hguard, hs, he, hrs, hov]
              · rw [Bool.not_eq_true] at hov
                simp [add_program_if_no_time_overlap, hguard, hs, he, hrs, hov]

/-- The program feed appends a block of programs all keyed to the fed
channel id, and the acceptance counter counts exactly that block. -/
theorem feedProgs_spec (num : String) : ∀ (progs : List ExtProg) (d : DedupState) (c : Nat),
    ∃ l, (progs.foldl (fun p prog =>
        let r := add_program_if_no_time_overlap p.1
          ⟨some num, some prog.start, some prog.stop, some prog.title⟩
        (r.2, if r.1 then p.2 + 1 else p.2)) (d, c)).1.programmeList
        = d.programmeList ++ l ∧
      (∀ p ∈ l, p.channel = some num) ∧
      (progs.foldl (fun p prog =>
        let r := add_program_if_no_time_overlap p.1
          ⟨some num, some prog.start, some prog.stop, some prog.title⟩
        (r.2, if r.1 then p.2 + 1 else p.2)) (d, c)).2 = c + l.length := by
  intro progs
  induction progs with
  | nil => intro d c; exact ⟨[], by simp, by simp, by simp⟩
  | cons pr rest ih =>
      intro d c
      rw [List.foldl_cons]
      set q := add_program_if_no_time_overlap d
        ⟨some num, some pr.start, some pr.stop, some pr.title⟩ with hq
      obtain ⟨l, hl1, hl2, hl3⟩ := ih q.2 (if q.1 then c + 1 else c)
      by_cases hacc : q.1 = true
      · refine ⟨⟨some num, some pr.start, some pr.stop, some pr.title⟩ :: l, ?_, ?_, ?_⟩
        · rw [hl1, add_program_progs d _, ← hq, hacc]
          simp
        · intro p hp
          rcases List.mem_cons.mp hp with rfl | hp2
          · rfl
          · exact hl2 p hp2
        · rw [hl3, hacc]
          simp
          omega
      · rw [Bool.not_eq_true] at hacc
        refine ⟨l, ?_, hl2, ?_⟩
        · rw [hl1, add_program_progs d _, ← hq, hacc]
          simp
        · rw [hl3, hacc]
          simp

theorem feedProgs_progs (d : DedupState) (num : String) (progs : List ExtProg) :
    ∃ l, (feedProgs d num progs).1.programmeList = d.programmeList ++ l ∧
      (∀ p ∈ l, p.channel = some num) ∧
      (feedProgs d num progs).2 = l.length := by
  obtain ⟨l, h1, h2, h3⟩ := feedProgs_spec num progs d 0
  exact ⟨l, h1, h2, by simpa using h3⟩

/-- The keep-other-channels block touches only the allocator tables and
the external program accumulator. -/
theorem processExtChannel_keeps (acc : Step4State × List String)
    (entry : String × ExtChannelInfo) :
    (processExtChannel acc entry).1.store = acc.1.store ∧
    (processExtChannel acc entry).1.pending = acc.1.pending ∧
    (processExtChannel acc entry).1.dedup = acc.1.dedup ∧
    (processExtChannel acc entry).1.tempCounter = acc.1.tempCounter ∧
    (processExtChannel acc entry).1.officialSet = acc.1.officialSet ∧
    (processExtChannel acc entry).1.hasExternalSingle = acc.1.hasExternalSingle := by
  obtain ⟨st, ex⟩ := acc
  obtain ⟨raw, info⟩ := entry
  unfold processExtChannel
  cases hlk : alistLookup st.extNameToFinalId (pyStrip info.mainName) <;> simp [hlk]

theorem foldExtChannels_keeps (entries : List (String × ExtChannelInfo)) :
    ∀ acc : Step4State × List String,
    (entries.foldl processExtChannel acc).1.store = acc.1.store ∧
    (entries.foldl processExtChannel acc).1.pending = acc.1.pending ∧
    (entries.foldl processExtChannel acc).1.dedup = acc.1.dedup ∧
    (entries.foldl processExtChannel acc).1.tempCounter = acc.1.tempCounter ∧
    (entries.foldl processExtChannel acc).1.officialSet = acc.1.officialSet ∧
    (entries.foldl processExtChannel acc).1.hasExternalSingle = acc.1.hasExternalSingle := by
  induction entries with
  | nil => intro acc; exact ⟨rfl, rfl, rfl, rfl, rfl, rfl⟩
  | cons e rest ih =>
      intro acc
      rw [List.foldl_cons]
      obtain ⟨i1, i2, i3, i4, i5, i6⟩ := ih (processExtChannel acc e)
      obtain ⟨k1, k2, k3, k4, k5, k6⟩ := processExtChannel_keeps acc e
      exact ⟨by rw [i1, k1], by rw [i2, k2], by rw [i3, k3], by rw [i4, k4],
        by rw [i5, k5], by rw [i6, k6]⟩

theorem processKeepOther_keeps (st : Step4State) (src : SourceData) :
    (processKeepOther st src).store = st.store ∧
    (processKeepOther st src).pending = st.pending ∧
    (processKeepOther st src).dedup = st.dedup ∧
    (processKeepOther st src).tempCounter = st.tempCounter ∧
    (processKeepOther st src).officialSet = st.officialSet ∧
    (processKeepOther st src).hasExternalSingle = st.hasExternalSingle := by
  obtain ⟨i1, i2, i3, i4, i5, i6⟩ :=
    foldExtChannels_keeps src.fullChannelInfo (st, computeExistingIds st)
  unfold processKeepOther
  exact ⟨i1, i2, i3, i4, i5, i6⟩

set_option maxHeartbeats 1000000 in
/-- Structure of one pending-channel step: the programme list grows by a
block keyed to a single channel number, the official set is untouched,
the store is unchanged (with the number equal to the channel's truthy
local number unless nothing was fed) or updated only by minting a fresh
temporary number for a non-truthy entry, and the next-pending list
either keeps the processed index or drops it exactly per the
exclude-multi and feed-success conditions. -/
theorem processChannel_shape (src : SourceData) (acc : PendAcc) (i : Nat) :
    ∃ (num : String) (l : List Prog),
      (processChannel src acc i).st.dedup.programmeList
        = acc.st.dedup.programmeList ++ l ∧
      (∀ p ∈ l, p.channel = some num) ∧
      (processChannel src acc i).st.officialSet = acc.st.officialSet ∧
      (((processChannel src acc i).st.store = acc.st.store ∧
         (processChannel src acc i).st.tempCounter = acc.st.tempCounter ∧
         (l = [] ∨ (num = (acc.st.store.getD i default).localNum.getD "" ∧
            truthyStr (acc.st.store.getD i default).localNum = true)))
       ∨ ((processChannel src acc i).st.store
            = acc.st.store.set i
                { acc.st.store.getD i default with localNum := some num } ∧
          num = tempId acc.st.tempCounter ∧
          (processChannel src acc i).st.tempCounter = acc.st.tempCounter + 1 ∧
          truthyStr (acc.st.store.getD i default).localNum = false)) ∧
      ((l = [] ∧ ((processChannel src acc i).nextPending = acc.nextPending ∨
                  (processChannel src acc i).nextPending = acc.nextPending ++ [i]))
       ∨ (processChannel src acc i).nextPending
           = (if isExcludeMulti (acc.st.store.getD i default) = false
              then acc.nextPending ++ [i]
              else if l.length = 0 then acc.nextPending ++ [i] else acc.nextPending)) := by
  by_cases c1 : (optMem (acc.st.store.getD i default).localNum acc.st.officialSet
      || (isExcludeMulti (acc.st.store.getD i default)
          && optMem (acc.st.store.getD i default).localNum acc.st.hasExternalSingle)) = true
  · refine ⟨"", [], ?_, by simp, ?_, ?_, ?_⟩ <;>
      simp only [processChannel, c1, if_true] <;> simp
  · by_cases c2 : (src.isOfficial && truthyStr (acc.st.store.getD i default).localNum
        && !strStartsWith ((acc.st.store.getD i default).localNum.getD "") tempPref) = true
    · by_cases c3 : (decide ((acc.st.store.getD i default).localNum.getD "" ∈ src.identifiers)
          && !((alistLookup src.epgMap
                ((acc.st.store.getD i default).localNum.getD "")).getD []).isEmpty) = true
      · -- official branch, feed happens
        obtain ⟨l, hl1, hl2, hl3⟩ := feedProgs_progs acc.st.dedup
          ((acc.st.store.getD i default).localNum.getD "")
          ((alistLookup src.epgMap ((acc.st.store.getD i default).localNum.getD "")).getD [])
        have htr : truthyStr (acc.st.store.getD i default).localNum = true := by
          rw [Bool.and_eq_true, Bool.and_eq_true] at c2
          exact c2.1.2
        refine ⟨(acc.st.store.getD i default).localNum.getD "", l, ?_, hl2, ?_, ?_, ?_⟩
        · simp only [processChannel, c1, Bool.false_eq_true, if_false, c2, if_true, c3]
          exact hl1
        · simp only [processChannel, c1, Bool.false_eq_true, if_false, c2, if_true, c3]
        · left
          refine ⟨?_, ?_, Or.inr ⟨rfl, htr⟩⟩ <;>
            simp only [processChannel, c1, Bool.false_eq_true, if_false, c2, if_true, c3]
        · simp only [processChannel, c1, Bool.false_eq_true, if_false, c2, if_true, c3]
          right
          rw [hl3]
          by_cases hex : isExcludeMulti (acc.st.store.getD i default) = true
          · by_cases hlen : l.length = 0
            · simp [hex, hlen]
            · simp [hex, hlen]
          · rw [Bool.not_eq_true] at hex
            simp [hex]
      · -- official branch, no feed
        refine ⟨"", [], ?_, by simp, ?_, ?_, ?_⟩ <;>
          simp only [processChannel, c1, Bool.false_eq_true, if_false, c2, if_true, c3] <;>
          simp
    · -- fuzzy branch
      by_cases c4 : (truthyStr (fuzzy_match (acc.st.store.getD i default).cleanName
            src.identifiers src.cleanName)
          && (alistLookup src.epgMap
              ((fuzzy_match (acc.st.store.getD i default).cleanName
                src.identifiers src.cleanName).getD "")).isSome) = true
      · by_cases c5 : (!((alistLookup src.epgMap
            ((fuzzy_match (acc.st.store.getD i default).cleanName
              src.identifiers src.cleanName).getD "")).getD []).isEmpty) = true
        · -- feed happens; split on minting
          by_cases c6 : (!truthyStr (acc.st.store.getD i default).localNum) = true
          · -- minted
            obtain ⟨l, hl1, hl2, hl3⟩ := feedProgs_progs acc.st.dedup
              (tempId acc.st.tempCounter)
              ((alistLookup src.epgMap
                ((fuzzy_match (acc.st.store.getD i default).cleanName
                  src.identifiers src.cleanName).getD "")).getD [])
            refine ⟨tempId acc.st.tempCounter, l, ?_, hl2, ?_, ?_, ?_⟩
            · simp only [processChannel, c1, Bool.false_eq_true, if_false, c2, c4, if_true,
                c5, c6]
              exact hl1
            · simp only [processChannel, c1, Bool.false_eq_true, if_false, c2, c4, if_true,
                c5, c6]
            · right
              have htr0 : truthyStr (acc.st.store.getD i default).localNum = false := by
                cases h : truthyStr (acc.st.store.getD i default).localNum
                · rfl
                · exact absurd c6 (by rw [h]; simp)
              refine ⟨?_, rfl, ?_, htr0⟩ <;>
                simp only [processChannel, c1, Bool.false_eq_true, if_false, c2, c4, if_true,
                  c5, c6]
            · simp only [processChannel, c1, Bool.false_eq_true, if_false, c2, c4, if_true,
                c5, c6]
              right
              rw [hl3]
              by_cases hex : isExcludeMulti (acc.st.store.getD i default) = true
              · by_cases hlen : l.length = 0
                · simp [hex, hlen]
                · simp [hex, hlen]
              · rw [Bool.not_eq_true] at hex
                simp [hex]
          · -- not minted
            obtain ⟨l, hl1, hl2, hl3⟩ := feedProgs_progs acc.st.dedup
              ((acc.st.store.getD i default).localNum.getD "")
              ((alistLookup src.epgMap
                ((fuzzy_match (acc.st.store.getD i default).cleanName
                  src.identifiers src.cleanName).getD "")).getD [])
            have htr : truthyStr (acc.st.store.getD i default).localNum = true := by
              cases h : truthyStr (acc.st.store.getD i default).localNum
              · exact absurd (by rw [h]; rfl) c6
              · rfl
            refine ⟨(acc.st.store.getD i default).localNum.getD "", l, ?_, hl2, ?_, ?_, ?_⟩
            · simp only [processChannel, c1, Bool.false_eq_true, if_false, c2, c4, if_true,
                c5, c6]
              exact hl1
            · simp only [processChannel, c1, Bool.false_eq_true, if_false, c2, c4, if_true,
                c5, c6]
            · left
              refine ⟨?_, ?_, Or.inr ⟨rfl, htr⟩⟩ <;>
                simp only [processChannel, c1, Bool.false_eq_true, if_false, c2, c4, if_true,
                  c5, c6]
            · simp only [processChannel, c1, Bool.false_eq_true, if_false, c2, c4, if_true,
                c5, c6]
              right
              rw [hl3]
              by_cases hex : isExcludeMulti (acc.st.store.getD i default) = true
              · by_cases hlen : l.length = 0
                · simp [hex, hlen]
                · simp [hex, hlen]
              · rw [Bool.not_eq_true] at hex
                simp [hex]
        · -- matched but empty program list
          refine ⟨"", [], ?_, by simp, ?_, ?_, ?_⟩ <;>
            simp only [processChannel, c1, Bool.false_eq_true, if_false, c2, c4, if_true,
              c5] <;>
            simp
      · -- no fuzzy match
        refine ⟨"", [], ?_, by simp, ?_, ?_, ?_⟩ <;>
          simp only [processChannel, c1, Bool.false_eq_true, if_false, c2, c4] <;>
          simp


/-- Reading an updated list at any position yields either the old entry
or the written entry at the written position. -/
theorem getD_set_cases {α : Type} [Inhabited α] (l : List α) (i k : Nat) (a : α) :
    (l.set i a).getD k default = l.getD k default ∨
    ((l.set i a).getD k default = a ∧ k = i) := by
  by_cases hki : k = i
  · subst hki
    by_cases hlen : k < l.length
    · right
      refine ⟨?_, rfl⟩
      rw [List.getD_eq_getElem?_getD, List.getElem?_set_self hlen]
      rfl
    · left
      rw [List.set_eq_of_length_le (by omega)]
  · left
    rw [List.getD_eq_getElem?_getD, List.getElem?_set_ne (fun h => hki h.symm),
      ← List.getD_eq_getElem?_getD]

theorem keyCount_congr (st' st : Step4State) (id : String) (l : List Nat)
    (h : ∀ k, ((st'.store.getD k default).localNum = some id
         ↔ (st.store.getD k default).localNum = some id)) :
    keyCount st' id l = keyCount st id l := by
  unfold keyCount
  refine List.countP_congr ?_
  intro k _
  simpa using h k

theorem keyCount_append (st : Step4State) (id : String) (l1 l2 : List Nat) :
    keyCount st id (l1 ++ l2) = keyCount st id l1 + keyCount st id l2 :=
  List.countP_append _ _ _

theorem keyCount_single_le (st : Step4State) (id : String) (i : Nat) :
    keyCount st id [i] ≤ 1 := by
  simp only [keyCount, List.countP_cons, List.countP_nil]
  split_ifs <;> simp

/-- Entry-wise facts about one pending-channel step, relative to a fixed
output id that is never a future temporary id: counter monotonicity,
stability of the id-keyed entry set and of the exclude-multi flag,
programme-count monotonicity, exact preservation around steps of
channels not keyed to the id, and the pending-count bounds for a step of
an id-keyed exclude-multi channel. -/
theorem processChannel_facts (src : SourceData) (acc : PendAcc) (i : Nat) (id : String)
    (hid : id ≠ "")
    (hfresh : ∀ j, acc.st.tempCounter ≤ j → id ≠ tempId j) :
    acc.st.tempCounter ≤ (processChannel src acc i).st.tempCounter ∧
    (∀ k, (((processChannel src acc i).st.store.getD k default).localNum = some id
          ↔ (acc.st.store.getD k default).localNum = some id)) ∧
    (∀ k, isExcludeMulti ((processChannel src acc i).st.store.getD k default)
          = isExcludeMulti (acc.st.store.getD k default)) ∧
    progCount acc.st id ≤ progCount (processChannel src acc i).st id ∧
    ((acc.st.store.getD i default).localNum ≠ some id →
       progCount (processChannel src acc i).st id = progCount acc.st id ∧
       keyCount (processChannel src acc i).st id (processChannel src acc i).nextPending
         = keyCount acc.st id acc.nextPending) ∧
    ((acc.st.store.getD i default).localNum = some id →
       isExcludeMulti (acc.st.store.getD i default) = true →
       keyCount (processChannel src acc i).st id (processChannel src acc i).nextPending
           ≤ keyCount acc.st id acc.nextPending + 1 ∧
       (progCount acc.st id < progCount (processChannel src acc i).st id →
         keyCount (processChannel src acc i).st id (processChannel src acc i).nextPending
           ≤ keyCount acc.st id acc.nextPending)) := by
  obtain ⟨num, l, hp, hkey, hoff2, hstore, hnp⟩ := processChannel_shape src acc i
  have hpc : progCount (processChannel src acc i).st id
      = progCount acc.st id + l.countP (fun p => p.channel == some id) := by
    unfold progCount
    rw [hp, List.countP_append]
  have hcnt0 : num ≠ id → l.countP (fun p => p.channel == some id) = 0 := by
    intro hne
    rw [List.countP_eq_zero]
    intro p hmem
    rw [hkey p hmem]
    simp [hne]
  have hks : ∀ k, (((processChannel src acc i).st.store.getD k default).localNum = some id
      ↔ (acc.st.store.getD k default).localNum = some id) := by
    intro k
    rcases hstore with ⟨hs, _, _⟩ | ⟨hs, hnum, _, htr0⟩
    · rw [hs]
    · rw [hs]
      rcases getD_set_cases acc.st.store i k _ with hcase | ⟨hcase, hki⟩
      · rw [hcase]
      · subst hki
        rw [hcase]
        constructor
        · intro h
          have h2 : some num = some id := h
          exact absurd ((Option.some.inj h2).symm.trans hnum)
            (hfresh acc.st.tempCounter (le_refl _))
        · intro h
          exfalso
          rw [h] at htr0
          simp [truthyStr] at htr0
          exact hid htr0
  have hexk : ∀ k, isExcludeMulti ((processChannel src acc i).st.store.getD k default)
      = isExcludeMulti (acc.st.store.getD k default) := by
    intro k
    rcases hstore with ⟨hs, _, _⟩ | ⟨hs, _, _, _⟩
    · rw [hs]
    · rw [hs]
      rcases getD_set_cases acc.st.store i k _ with hcase | ⟨hcase, hki⟩
      · rw [hcase]
      · subst hki
        rw [hcase]
        rfl
  have hkcc : ∀ ll, keyCount (processChannel src acc i).st id ll = keyCount acc.st id ll :=
    fun ll => keyCount_congr _ _ _ _ hks
  have hnp2 : (processChannel src acc i).nextPending = acc.nextPending ∨
      (processChannel src acc i).nextPending = acc.nextPending ++ [i] := by
    rcases hnp with ⟨_, h⟩ | h
    · exact h
    · rw [h]; split_ifs <;> simp
  have hcm : acc.st.tempCounter ≤ (processChannel src acc i).st.tempCounter := by
    rcases hstore with ⟨_, hc, _⟩ | ⟨_, _, hc, _⟩ <;> rw [hc] <;> omega
  refine ⟨hcm, hks, hexk, by rw [hpc]; omega, ?_, ?_⟩
  · intro hne
    have hml : l.countP (fun p => p.channel == some id) = 0 := by
      rcases hstore with ⟨_, _, hnum⟩ | ⟨_, hnum, _, _⟩
      · rcases hnum with hl | ⟨hnum, htr⟩
        · rw [hl]; rfl
        · apply hcnt0
          intro hne2
          cases hx : (acc.st.store.getD i default).localNum with
          | none => rw [hx] at htr; exact absurd htr (by simp [truthyStr])
          | some v =>
              rw [hx] at hne
              rw [hx] at hnum
              exact hne (by rw [← hne2, hnum]; exact rfl)
      · apply hcnt0
        intro hne2
        exact hfresh acc.st.tempCounter (le_refl _) (hne2.symm.trans hnum)
    constructor
    · rw [hpc, hml]
      omega
    · have hki0 : keyCount (processChannel src acc i).st id [i] = 0 := by
        have hnk : ¬((processChannel src acc i).st.store.getD i default).localNum = some id :=
          fun h => hne ((hks i).mp h)
        simp only [keyCount, List.countP_cons, List.countP_nil,
          List.getD_eq_getElem?_getD] at hnk ⊢
        simp [hnk]
      rcases hnp2 with h | h
      · rw [h, hkcc]
      · rw [h, keyCount_append, hki0, hkcc]
        omega
  · intro hkeyi hexi
    have htr : truthyStr (acc.st.store.getD i default).localNum = true := by
      rw [hkeyi]
      simp [truthyStr, hid]
    refine ⟨?_, ?_⟩
    · rcases hnp2 with h | h
      · rw [h, hkcc]
        omega
      · rw [h, keyCount_append, hkcc]
        have hone := keyCount_single_le (processChannel src acc i).st id i
        omega
    · intro hgrow
      have hlne : l ≠ [] := by
        intro h0
        rw [hpc, h0] at hgrow
        simp at hgrow
      rcases hnp with ⟨hl0, _⟩ | h
      · exact absurd hl0 hlne
      · rw [h]
        have hlen : ¬ l.length = 0 := fun h0 => hlne (List.length_eq_zero.mp h0)
        rw [if_neg (by rw [hexi]; simp), if_neg hlen, hkcc]

/-- The pending-channel fold: counter monotonicity, stability of the
id-keyed entry set, programme-count monotonicity, the pending-count
bound (strict after any growth of the id programme count), and the
absence of growth when no processed entry is keyed to the id. -/
theorem foldPend_master (src : SourceData) (id : String) (hid : id ≠ "") :
    ∀ (todo : List Nat) (acc : PendAcc),
      (∀ j, acc.st.tempCounter ≤ j → id ≠ tempId j) →
      (∀ i ∈ todo, (acc.st.store.getD i default).localNum = some id →
          isExcludeMulti (acc.st.store.getD i default) = true) →
      acc.st.tempCounter ≤ (todo.foldl (processChannel src) acc).st.tempCounter ∧
      (∀ k, (((todo.foldl (processChannel src) acc).st.store.getD k default).localNum
              = some id
            ↔ (acc.st.store.getD k default).localNum = some id)) ∧
      progCount acc.st id ≤ progCount (todo.foldl (processChannel src) acc).st id ∧
      keyCount (todo.foldl (processChannel src) acc).st id
          (todo.foldl (processChannel src) acc).nextPending
        ≤ keyCount acc.st id todo + keyCount acc.st id acc.nextPending ∧
      (progCount acc.st id < progCount (todo.foldl (processChannel src) acc).st id →
        keyCount (todo.foldl (processChannel src) acc).st id
            (todo.foldl (processChannel src) acc).nextPending + 1
          ≤ keyCount acc.st id todo + keyCount acc.st id acc.nextPending) ∧
      (keyCount acc.st id todo = 0 →
        progCount (todo.foldl (processChannel src) acc).st id = progCount acc.st id) := by
  intro todo
  induction todo with
  | nil =>
      intro acc hfresh hexcl
      refine ⟨le_refl _, fun k => Iff.rfl, le_refl _, ?_, ?_, fun _ => rfl⟩
      · simp only [List.foldl_nil, keyCount, List.countP_nil]
        omega
      · intro h
        rw [List.foldl_nil] at h
        exact absurd h (lt_irrefl _)
  | cons i rest ih =>
      intro acc hfresh hexcl
      rw [List.foldl_cons]
      obtain ⟨f1, f2, f3, f4, f5, f6⟩ := processChannel_facts src acc i id hid hfresh
      have hfresh2 : ∀ j, (processChannel src acc i).st.tempCounter ≤ j → id ≠ tempId j :=
        fun j hj => hfresh j (le_trans f1 hj)
      have hexcl2 : ∀ i2 ∈ rest,
          ((processChannel src acc i).st.store.getD i2 default).localNum = some id →
          isExcludeMulti ((processChannel src acc i).st.store.getD i2 default) = true := by
        intro i2 hi2 hk2
        rw [f3 i2]
        exact hexcl i2 (List.mem_cons_of_mem _ hi2) ((f2 i2).mp hk2)
      obtain ⟨g1, g2, g3, g4, g5, g6⟩ := ih (processChannel src acc i) hfresh2 hexcl2
      have hkr : keyCount (processChannel src acc i).st id rest = keyCount acc.st id rest :=
        keyCount_congr _ _ _ _ f2
      have hcons : keyCount acc.st id (i :: rest)
          = keyCount acc.st id rest
            + (if (acc.st.store.getD i default).localNum = some id then 1 else 0) := by
        simp [keyCount, List.countP_cons]
      refine ⟨le_trans f1 g1, fun k => (g2 k).trans (f2 k), le_trans f4 g3, ?_, ?_, ?_⟩
      · by_cases hkeyi : (acc.st.store.getD i default).localNum = some id
        · have hexi := hexcl i (List.mem_cons_self _ _) hkeyi
          obtain ⟨h6a, _⟩ := f6 hkeyi hexi
          rw [hcons, if_pos hkeyi]
          rw [hkr] at g4
          omega
        · obtain ⟨_, h5b⟩ := f5 hkeyi
          rw [hcons, if_neg hkeyi]
          rw [hkr, h5b] at g4
          omega
      · intro hg
        by_cases hkeyi : (acc.st.store.getD i default).localNum = some id
        · have hexi := hexcl i (List.mem_cons_self _ _) hkeyi
          obtain ⟨h6a, h6b⟩ := f6 hkeyi hexi
          rw [hcons, if_pos hkeyi]
          by_cases hstep : progCount acc.st id < progCount (processChannel src acc i).st id
          · have h6c := h6b hstep
            rw [hkr] at g4
            omega
          · have hg2 : progCount (processChannel src acc i).st id
                < progCount (rest.foldl (processChannel src) (processChannel src acc i)).st id := by
              omega
            have hb := g5 hg2
            rw [hkr] at hb
            omega
        · obtain ⟨h5a, h5b⟩ := f5 hkeyi
          rw [hcons, if_neg hkeyi]
          have hg2 : progCount (processChannel src acc i).st id
              < progCount (rest.foldl (processChannel src) (processChannel src acc i)).st id := by
            omega
          have hb := g5 hg2
          rw [hkr, h5b] at hb
          omega
      · intro hz
        by_cases hkeyi : (acc.st.store.getD i default).localNum = some id
        · rw [hcons, if_pos hkeyi] at hz
          omega
        · obtain ⟨h5a, _⟩ := f5 hkeyi
          rw [hcons, if_neg hkeyi] at hz
          have hb := g6 (by rw [hkr]; omega)
          omega

/-- The whole pending loop, given that every id-keyed pending entry is
an exclude-multi channel. -/
theorem processPending_clean (st : Step4State) (src : SourceData) (id : String)
    (hid : id ≠ "")
    (hfresh : ∀ j, st.tempCounter ≤ j → id ≠ tempId j)
    (hexcl : ∀ i ∈ st.pending, (st.store.getD i default).localNum = some id →
        isExcludeMulti (st.store.getD i default) = true) :
    (∀ j, (processPending st src).tempCounter ≤ j → id ≠ tempId j) ∧
    progCount st id ≤ progCount (processPending st src) id ∧
    keyCount (processPending st src) id (processPending st src).pending
      ≤ keyCount st id st.pending ∧
    (progCount st id < progCount (processPending st src) id →
      keyCount (processPending st src) id (processPending st src).pending + 1
        ≤ keyCount st id st.pending) ∧
    (keyCount st id st.pending = 0 →
      progCount (processPending st src) id = progCount st id) := by
  obtain ⟨m1, m2, m3, m4, m5, m6⟩ :=
    foldPend_master src id hid st.pending ⟨st, []⟩ hfresh hexcl
  have q1 : (⟨st, ([] : List Nat)⟩ : PendAcc).st = st := rfl
  have q2 : (⟨st, ([] : List Nat)⟩ : PendAcc).nextPending = ([] : List Nat) := rfl
  rw [q1] at m1 m2 m3 m6
  rw [q1, q2] at m4 m5
  have hz1 : keyCount st id ([] : List Nat) = 0 := by
    simp only [keyCount, List.countP_nil]
  rw [hz1] at m4 m5
  have e1 : (processPending st src).tempCounter
      = (st.pending.foldl (processChannel src) ⟨st, []⟩).st.tempCounter := rfl
  have e2 : progCount (processPending st src) id
      = progCount (st.pending.foldl (processChannel src) ⟨st, []⟩).st id := rfl
  have e3 : keyCount (processPending st src) id (processPending st src).pending
      = keyCount (st.pending.foldl (processChannel src) ⟨st, []⟩).st id
          (st.pending.foldl (processChannel src) ⟨st, []⟩).nextPending := rfl
  refine ⟨?_, ?_, ?_, ?_, ?_⟩
  · intro j hj
    rw [e1] at hj
    exact hfresh j (le_trans m1 hj)
  · rw [e2]
    exact m3
  · rw [e3]
    omega
  · intro h
    rw [e2] at h
    rw [e3]
    have hb := m5 h
    omega
  · intro hz
    rw [e2]
    exact m6 hz

/-- One whole source, given that every id-keyed pending entry is an
exclude-multi channel. -/
theorem processSource_clean (st : Step4State) (src0 : SourceData) (id : String)
    (hid : id ≠ "")
    (hfresh : ∀ j, st.tempCounter ≤ j → id ≠ tempId j)
    (hexcl : ∀ i ∈ st.pending, (st.store.getD i default).localNum = some id →
        isExcludeMulti (st.store.getD i default) = true) :
    (∀ j, (processSource st src0).tempCounter ≤ j → id ≠ tempId j) ∧
    progCount st id ≤ progCount (processSource st src0) id ∧
    keyCount (processSource st src0) id (processSource st src0).pending
      ≤ keyCount st id st.pending ∧
    (progCount st id < progCount (processSource st src0) id →
      keyCount (processSource st src0) id (processSource st src0).pending + 1
        ≤ keyCount st id st.pending) ∧
    (keyCount st id st.pending = 0 →
      progCount (processSource st src0) id = progCount st id) := by
  by_cases hguard : (src0.epgMap.isEmpty || src0.identifiers.isEmpty) = true
  · have he : processSource st src0 = st := by
      unfold processSource
      rw [if_pos hguard]
    rw [he]
    exact ⟨hfresh, le_refl _, le_refl _, fun h => absurd h (lt_irrefl _), fun _ => rfl⟩
  · have he : processSource st src0
        = processPending (processKeepOther st (renameSource src0)) (renameSource src0) := by
      unfold processSource
      rw [if_neg hguard]
    obtain ⟨k1, k2, k3, k4, _, _⟩ := processKeepOther_keeps st (renameSource src0)
    have hfresh1 : ∀ j, (processKeepOther st (renameSource src0)).tempCounter ≤ j →
        id ≠ tempId j := by
      rw [k4]
      exact hfresh
    have hexcl1 : ∀ i ∈ (processKeepOther st (renameSource src0)).pending,
        ((processKeepOther st (renameSource src0)).store.getD i default).localNum = some id →
        isExcludeMulti ((processKeepOther st (renameSource src0)).store.getD i default)
          = true := by
      rw [k1, k2]
      exact hexcl
    obtain ⟨p1, p2, p3, p4, p5⟩ :=
      processPending_clean (processKeepOther st (renameSource src0)) (renameSource src0)
        id hid hfresh1 hexcl1
    have hpc1 : progCount (processKeepOther st (renameSource src0)) id = progCount st id := by
      unfold progCount
      rw [k3]
    have hkc1 : keyCount (processKeepOther st (renameSource src0)) id
        (processKeepOther st (renameSource src0)).pending = keyCount st id st.pending := by
      unfold keyCount
      rw [k1, k2]
    rw [he]
    refine ⟨p1, ?_, ?_, ?_, ?_⟩
    · rw [← hpc1]
      exact p2
    · rw [← hkc1]
      exact p3
    · intro h
      rw [← hkc1]
      exact p4 (by rw [hpc1]; exact h)
    · intro h
      rw [← hpc1]
      exact p5 (by rw [hkc1]; exact h)

/-- Over any tail of sources, a state whose pending set carries no entry
keyed to the id keeps the id programme count unchanged. -/
theorem runSources_clean (id : String) (hid : id ≠ "") :
    ∀ (srcs : List SourceData) (st : Step4State),
      (∀ j, st.tempCounter ≤ j → id ≠ tempId j) →
      keyCount st id st.pending = 0 →
      progCount (runSources st srcs) id = progCount st id := by
  intro srcs
  induction srcs with
  | nil =>
      intro st h1 h2
      rfl
  | cons s rest ih =>
      intro st hfresh hz
      rw [show runSources st (s :: rest)
          = if st.pending.isEmpty then st
            else runSources (processSource st s) rest from rfl]
      by_cases hemp : st.pending.isEmpty
      · rw [if_pos hemp]
      · rw [if_neg hemp]
        have hexcl : ∀ i ∈ st.pending, (st.store.getD i default).localNum = some id →
            isExcludeMulti (st.store.getD i default) = true := by
          intro i hi hk
          have h0 := List.countP_eq_zero.mp hz i hi
          rw [hk] at h0
          exact absurd (decide_eq_true rfl) h0
        obtain ⟨p1, _, p3, _, p5⟩ := processSource_clean st s id hid hfresh hexcl
        have hz2 : keyCount (processSource st s) id (processSource st s).pending = 0 := by
          omega
        rw [ih (processSource st s) p1 hz2, p5 hz]

/-- A temporary `unm_` identifier never equals the local number `77`
used in the concrete single-contribution scenario. -/
theorem tempId_ne_77 (j : Nat) : ("77" : String) ≠ tempId j := by
  intro h
  have hd : ("77" : String).data = ("unm_" : String).data ++ (Nat.repr j).data := by
    rw [h]
    exact String.data_append _ _
  have h2 : (["7".get 0, "7".get 0] : List Char)
      = "u".get 0 :: "n".get 0 :: "m".get 0 :: "_".get 0 :: (Nat.repr j).data := hd
  injection h2 with h1 h3
  exact absurd h1 (by decide)

/-- C3: a pending channel of a single-contribution category (raw name in
`EXCLUDE_MULTI_SOURCE_CHANNELS` or category in
`EXCLUDE_MULTI_SOURCE_CATEGORIES`) keyed to local number `id`, once at
least one of its programs was accepted while processing a source, is
removed from the pending set, and no program for `id` is accepted from
any later source of the run (hypotheses: the id is nonempty, no
temporary `unm_` id of the run equals it, every id-keyed pending entry
is exclude-multi, and the id keys at most one pending entry). -/
theorem c3_exclude_multi_single_source
    (st : Step4State) (s : SourceData) (rest : List SourceData) (id : String)
    (hid : id ≠ "")
    (hfresh : ∀ j, st.tempCounter ≤ j → id ≠ tempId j)
    (hexcl : ∀ i ∈ st.pending, (st.store.getD i default).localNum = some id →
        isExcludeMulti (st.store.getD i default) = true)
    (hone : keyCount st id st.pending ≤ 1)
    (hacc : progCount st id < progCount (processSource st s) id) :
    (∀ i ∈ (processSource st s).pending,
        ((processSource st s).store.getD i default).localNum ≠ some id) ∧
    progCount (runSources (processSource st s) rest) id
      = progCount (processSource st s) id := by
  obtain ⟨p1, _, _, p4, _⟩ := processSource_clean st s id hid hfresh hexcl
  have hz : keyCount (processSource st s) id (processSource st s).pending = 0 := by
    have hb := p4 hacc
    omega
  refine ⟨?_, runSources_clean id hid rest (processSource st s) p1 hz⟩
  intro i hi hk
  have h0 := List.countP_eq_zero.mp hz i hi
  rw [hk] at h0
  exact h0 (decide_eq_true rfl)


/-- C3 witness: a `体验频道` channel keyed `77` satisfied by the first
source leaves the pending set and gains no program from the second
source. -/
theorem c3_exclude_multi_single_source_witness :
    (∀ i ∈ (processSource
        ⟨[⟨"t", "体验", "体验", "体验频道", "rtp://a", some "77"⟩,
          ⟨"t", "CCTVX", "CCTVX", "misc", "rtp://b", some "88"⟩],
         [0, 1], ⟨[], []⟩, [], [], [], 1, [], [], [], []⟩
        ⟨true, true, [],
         [("77", [⟨"77", "20250101080000 +0800", "20250101090000 +0800", "t1"⟩])],
         ["77"], [], [], []⟩).pending,
        ((processSource
        ⟨[⟨"t", "体验", "体验", "体验频道", "rtp://a", some "77"⟩,
          ⟨"t", "CCTVX", "CCTVX", "misc", "rtp://b", some "88"⟩],
         [0, 1], ⟨[], []⟩, [], [], [], 1, [], [], [], []⟩
        ⟨true, true, [],
         [("77", [⟨"77", "20250101080000 +0800", "20250101090000 +0800", "t1"⟩])],
         ["77"], [], [], []⟩).store.getD i default).localNum ≠ some "77") ∧
    progCount (runSources (processSource
        ⟨[⟨"t", "体验", "体验", "体验频道", "rtp://a", some "77"⟩,
          ⟨"t", "CCTVX", "CCTVX", "misc", "rtp://b", some "88"⟩],
         [0, 1], ⟨[], []⟩, [], [], [], 1, [], [], [], []⟩
        ⟨true, true, [],
         [("77", [⟨"77", "20250101080000 +0800", "20250101090000 +0800", "t1"⟩])],
         ["77"], [], [], []⟩)
        [⟨true, true, [],
          [("77", [⟨"77", "20250101100000 +0800", "20250101110000 +0800", "t2"⟩])],
          ["77"], [], [], []⟩]) "77"
      = progCount (processSource
        ⟨[⟨"t", "体验", "体验", "体验频道", "rtp://a", some "77"⟩,
          ⟨"t", "CCTVX", "CCTVX", "misc", "rtp://b", some "88"⟩],
         [0, 1], ⟨[], []⟩, [], [], [], 1, [], [], [], []⟩
        ⟨true, true, [],
         [("77", [⟨"77", "20250101080000 +0800", "20250101090000 +0800", "t1"⟩])],
         ["77"], [], [], []⟩) "77" :=
  c3_exclude_multi_single_source
    ⟨[⟨"t", "体验", "体验", "体验频道", "rtp://a", some "77"⟩,
      ⟨"t", "CCTVX", "CCTVX", "misc", "rtp://b", some "88"⟩],
     [0, 1], ⟨[], []⟩, [], [], [], 1, [], [], [], []⟩
    ⟨true, true, [],
     [("77", [⟨"77", "20250101080000 +0800", "20250101090000 +0800", "t1"⟩])],
     ["77"], [], [], []⟩
    [⟨true, true, [],
      [("77", [⟨"77", "20250101100000 +0800", "20250101110000 +0800", "t2"⟩])],
      ["77"], [], [], []⟩]
    "77"
    (by decide) (fun j _ => tempId_ne_77 j) (by decide) (by decide) (by decide)
